import Mathlib

/-!
Verification development for the delta-sculptor JSON patch library.

This file shallowly embeds the core of the library (RFC 6901 pointer
resolution, the RFC 6902 patch executor, the structural differ, the
LCS-based array differ with batching, and inverse-patch generation) as
executable Lean definitions translated from the TypeScript sources:
`src/utils.ts`, `src/validate.ts`, `src/errors.ts`, `src/patch.ts`,
`src/lcs.ts`, `src/array-utils.ts`, `src/diff-utils.ts`, `src/diff.ts`,
`src/inverse.ts`.

Modelling conventions:
* JSON values are a closed sum (`Value`); JS `undefined` is represented by
  the `undef` constructor (it shows up as the result of failed lookups and
  as the content of array holes).  Mutable in-place updates are modelled by
  returning the updated document.  `deepClone` preserves structure and on
  acyclic trees is structurally the identity, so it is modelled as such.
* JSON numbers are modelled as integers; no claim in scope depends on
  non-integer or IEEE-754 behaviour.
* JS host artifacts outside the JSON data model (prototype properties such
  as `length`, indexing into primitive strings) are not modelled: property
  access on an array resolves only canonical numeric indices, anything
  else is `undefined`, matching JS behaviour for index lookups on arrays.
* Exceptions are modelled with `Except`.  `PatchError` carries the error
  code, optional path and optional operation; the human-readable message
  strings are elided.  A JS `TypeError` (e.g. using `in` on a primitive)
  is a distinct constructor, so that `instanceof PatchError` checks can be
  translated faithfully.
* The module-level caches (pointer-parse cache, LCS cache) are modelled by
  explicit state passing where a claim depends on them (the LCS cache);
  the pointer-parse cache only memoizes a pure function of its key and is
  modelled by the pure function.
-/

namespace DS

mutual

/-- JSON-like values, from the data model used throughout the library
(`src/types.ts`): null, booleans, numbers, strings, arrays, string-keyed
objects, plus JS `undefined`.  Arrays and object field lists are mutually
inductive so that all recursions below are structural. -/
inductive Value where
  | null
  | bool (b : Bool)
  | num (n : Int)
  | str (s : String)
  | arr (xs : Values)
  | obj (fields : Fields)
  | undef

inductive Values where
  | nil
  | cons (head : Value) (tail : Values)

inductive Fields where
  | nil
  | cons (key : String) (val : Value) (tail : Fields)

end

/-- Convert a Lean list of values into the `Values` spine. -/
def Values.ofList : List Value → Values
  | [] => .nil
  | v :: rest => .cons v (Values.ofList rest)

/-- Convert the `Values` spine back into a Lean list. -/
def Values.toList : Values → List Value
  | .nil => []
  | .cons v rest => v :: rest.toList

/-- Convert a Lean association list into the `Fields` spine. -/
def Fields.ofList : List (String × Value) → Fields
  | [] => .nil
  | (k, v) :: rest => .cons k v (Fields.ofList rest)

/-- Convert the `Fields` spine back into a Lean association list. -/
def Fields.toList : Fields → List (String × Value)
  | .nil => []
  | .cons k v rest => (k, v) :: rest.toList

/-- Array literal helper. -/
def vArr (l : List Value) : Value := .arr (Values.ofList l)

/-- Object literal helper. -/
def vObj (l : List (String × Value)) : Value := .obj (Fields.ofList l)

/-- `array.length`. -/
def Values.length : Values → Nat
  | .nil => 0
  | .cons _ rest => 1 + rest.length

/-- Index lookup, `arr[i]` for a canonical in-range index. -/
def Values.get? : Values → Nat → Option Value
  | .nil, _ => none
  | .cons v _, 0 => some v
  | .cons _ rest, n + 1 => rest.get? n

/-- Replace the element at an index (no-op when out of range). -/
def Values.setAt : Values → Nat → Value → Values
  | .nil, _, _ => .nil
  | .cons _ rest, 0, x => .cons x rest
  | .cons v rest, n + 1, x => .cons v (rest.setAt n x)

/-- `splice(i, 0, x)`: insert at an index, clamped to the length (JS
`splice` clamps a start beyond the end to an append). -/
def Values.insertAt : Values → Nat → Value → Values
  | xs, 0, x => .cons x xs
  | .nil, _ + 1, x => .cons x .nil
  | .cons v rest, n + 1, x => .cons v (rest.insertAt n x)

/-- `splice(i, 1)`: remove the element at an in-range index. -/
def Values.removeAt : Values → Nat → Values
  | .nil, _ => .nil
  | .cons _ rest, 0 => rest
  | .cons v rest, n + 1 => .cons v (rest.removeAt n)

/-- `arr[i] = x` as used for sparse container creation in
`setValueByPointer`: assigning past the end pads with holes (`undef`). -/
def Values.assign : Values → Nat → Value → Values
  | .cons _ rest, 0, x => .cons x rest
  | .cons v rest, n + 1, x => .cons v (rest.assign n x)
  | .nil, 0, x => .cons x .nil
  | .nil, n + 1, x => .cons .undef (Values.assign .nil n x)

/-- `i in arr`: the index is an own property (in range and not a hole). -/
def Values.hasIdx (xs : Values) (n : Nat) : Bool :=
  match xs.get? n with
  | some .undef => false
  | some _ => true
  | none => false

/-- Number of keys, `Object.keys(o).length`. -/
def Fields.length : Fields → Nat
  | .nil => 0
  | .cons _ _ rest => 1 + rest.length

/-- Property lookup `o[k]` (first occurrence; JS objects have unique
keys). -/
def Fields.get? : Fields → String → Option Value
  | .nil, _ => none
  | .cons k v rest, s => if k = s then some v else rest.get? s

/-- `k in o`: key membership (a key holding `undefined` still counts). -/
def Fields.hasKey (fs : Fields) (s : String) : Bool :=
  (fs.get? s).isSome

/-- `o[k] = x`: overwrite an existing key in place, else append. -/
def Fields.set : Fields → String → Value → Fields
  | .nil, s, x => .cons s x .nil
  | .cons k v rest, s, x =>
    if k = s then .cons k x rest else .cons k v (rest.set s x)

/-- `delete o[k]`. -/
def Fields.remove : Fields → String → Fields
  | .nil, _ => .nil
  | .cons k v rest, s =>
    if k = s then rest else .cons k v (rest.remove s)

/-- The keys, in insertion order (`Object.keys`). -/
def Fields.keys : Fields → List String
  | .nil => []
  | .cons k _ rest => k :: rest.keys

mutual

/-- Structural deep equality, translated from `deepEqual` in
`src/validate.ts` (the version used by the patch executor and the diff;
`src/utils.ts` has an equivalent twin used by the LCS engine: same
results on the acyclic values of this model).  Arrays are order-
sensitive with a length check; objects compare key sets by lookup with a
key-count check; a lookup miss on the right (`b[key]` being `undefined`
while `key` is present in `a` with a defined value) is unequal, exactly
as `deepEqual(a[key], undefined)` is false in the source. -/
def deepEqual : Value → Value → Bool
  | .null, .null => true
  | .bool a, .bool b => a == b
  | .num a, .num b => a == b
  | .str a, .str b => a == b
  | .undef, .undef => true
  | .arr xs, .arr ys => xs.length == ys.length && deepEqualValues xs ys
  | .obj fs, .obj gs => fs.length == gs.length && deepEqualFields fs gs
  | _, _ => false

def deepEqualValues : Values → Values → Bool
  | .nil, _ => true
  | .cons _ _, .nil => false
  | .cons x xs, .cons y ys => deepEqual x y && deepEqualValues xs ys

def deepEqualFields : Fields → Fields → Bool
  | .nil, _ => true
  | .cons k v rest, gs =>
    (match gs.get? k with
     | some w => deepEqual v w
     | none => false)
    && deepEqualFields rest gs

end

/-- `deepClone` (`src/validate.ts`): on the acyclic trees of this model a
clone is structurally identical to its source, so it is the identity. -/
def deepClone (v : Value) : Value := v

/-- `detectCircular` (`src/validate.ts`): pushes on entry and pops on
leaving, so on the acyclic trees of this model it always returns `null`
(no circular path). -/
def detectCircular (_v : Value) : Option String := none

/-! ## Error taxonomy (`src/errors.ts`)

The enum as shipped in `src/errors.ts` has nine members; the extended
variant of the error module present in the repository adds
`INVALID_PATCH`, `INVALID_TARGET`, `MAX_DEPTH_EXCEEDED` and
`PATH_NOT_FOUND` together with the `pathNotFound` / `invalidPointerFormat`
helpers used by `src/validate.ts` and `src/inverse.ts`.  The model uses
the extended enum so every throw site in the sources is representable;
note that `src/errors.ts` itself has no `PATH_NOT_FOUND` member. -/

/-- `PatchErrorCode`. -/
inductive PatchErrorCode where
  | INVALID_POINTER
  | INVALID_OPERATION
  | INVALID_PATCH
  | INVALID_TARGET
  | TEST_OPERATION_FAILED
  | ARRAY_INDEX_ERROR
  | MISSING_REQUIRED_FIELD
  | ROOT_OPERATION_ERROR
  | CIRCULAR_REFERENCE
  | TYPE_MISMATCH
  | MAX_DEPTH_EXCEEDED
  | INTERNAL_ERROR
  | PATH_NOT_FOUND
deriving DecidableEq, Repr

/-- `PatchError`: code plus optional offending path and operation; the
message string is elided. -/
structure PatchError where
  code : PatchErrorCode
  path : Option String := none
  operation : Option String := none
deriving DecidableEq, Repr

/-- A thrown JS exception: either a `PatchError` or a host `TypeError`
(raised e.g. by the `in` operator on a primitive), distinguished so that
`instanceof PatchError` checks translate faithfully. -/
inductive Thrown where
  | patchError (e : PatchError)
  | jsTypeError
deriving DecidableEq, Repr

/-- `PatchError.invalidPointer(path)`. -/
def PatchError.invalidPointer (path : String) : PatchError :=
  { code := .INVALID_POINTER, path := some path }

/-- `PatchError.pathNotFound(path)` (extended error module). -/
def PatchError.pathNotFound (path : String) : PatchError :=
  { code := .PATH_NOT_FOUND, path := some path }

/-- `PatchError.invalidOperation(operation)`. -/
def PatchError.invalidOperation (operation : String) : PatchError :=
  { code := .INVALID_OPERATION, operation := some operation }

/-- `PatchError.testFailed(path, expected, actual)`. -/
def PatchError.testFailed (path : String) : PatchError :=
  { code := .TEST_OPERATION_FAILED, path := some path, operation := some "test" }

/-- `PatchError.missingField(operation, field)`. -/
def PatchError.missingField (operation : String) : PatchError :=
  { code := .MISSING_REQUIRED_FIELD, operation := some operation }

/-- `PatchError.invalidPointerFormat(message)` (extended error module):
an `INVALID_POINTER` error with no path recorded. -/
def PatchError.invalidPointerFormat : PatchError :=
  { code := .INVALID_POINTER }

/-- Result of a library call that can throw. -/
abbrev JsResult (A : Type) := Except Thrown A

/-- Throw a `PatchError`. -/
def throwPE {A : Type} (e : PatchError) : JsResult A := .error (.patchError e)

/-! ## String and character utilities -/

/-- JS `s.split('/')` on a character list: splits at every `'/'`,
keeping empty pieces (`''.split('/')` is `['']`). -/
def splitSlash : List Char → List (List Char)
  | [] => [[]]
  | c :: rest =>
    if c = '/' then [] :: splitSlash rest
    else
      match splitSlash rest with
      | s :: ss => (c :: s) :: ss
      | [] => [[c]]

/-- Digits prefix accumulator for `parseInt`. -/
def takeDigits : List Char → Option Nat → (Option Nat × List Char)
  | [], acc => (acc, [])
  | c :: rest, acc =>
    if c.isDigit then
      takeDigits rest (some ((acc.getD 0) * 10 + (c.toNat - '0'.toNat)))
    else (acc, c :: rest)

/-- JS `parseInt(s, 10)`: an optional sign followed by the longest digit
prefix; `none` models `NaN` (no digits). -/
def jsParseInt (s : String) : Option Int :=
  match s.toList with
  | '-' :: rest =>
    match (takeDigits rest none).1 with
    | some n => some (-(n : Int))
    | none => none
  | chars =>
    match (takeDigits chars none).1 with
    | some n => some (n : Int)
    | none => none

/-- A canonical array index string: the decimal numeral with no leading
zeros (the only strings under which JS exposes array elements as
properties). -/
def canonicalIndex? (s : String) : Option Nat :=
  match s.toList with
  | [] => none
  | chars =>
    if chars.all Char.isDigit ∧ (chars.head? = some '0' → chars = ['0']) then
      (takeDigits chars none).1
    else none

/-- Array property lookup `arr[s]` for a string key: only a canonical
in-range index resolves; everything else is `undefined` (`none`). -/
def Values.getStr (xs : Values) (s : String) : Option Value :=
  match canonicalIndex? s with
  | some n => xs.get? n
  | none => none

/-- Rebuild helper paired with `Values.getStr`: write back through the
same canonical index (used when a traversal step descended through
`arr[s]`). -/
def Values.setStr (xs : Values) (s : String) (v : Value) : Values :=
  match canonicalIndex? s with
  | some n => xs.setAt n v
  | none => xs

/-- `escapePointerSegment` (`src/utils.ts`): `s.replace(/~/g, '~0')`
followed by `.replace(/\//g, '~1')`; since the first pass introduces no
`'/'`, the two global single-character passes amount to this one
character-wise expansion. -/
def escapeChars : List Char → List Char
  | [] => []
  | c :: rest =>
    if c = '~' then '~' :: '0' :: escapeChars rest
    else if c = '/' then '~' :: '1' :: escapeChars rest
    else c :: escapeChars rest

/-- JS `s.replace(/~1/g, '/')`: left-to-right, non-overlapping. -/
def replaceTilde1 : List Char → List Char
  | [] => []
  | c :: rest =>
    if c = '~' then
      match rest with
      | [] => ['~']
      | c2 :: rest2 =>
        if c2 = '1' then '/' :: replaceTilde1 rest2
        else '~' :: replaceTilde1 (c2 :: rest2)
    else c :: replaceTilde1 rest

/-- JS `s.replace(/~0/g, '~')`: left-to-right, non-overlapping. -/
def replaceTilde0 : List Char → List Char
  | [] => []
  | c :: rest =>
    if c = '~' then
      match rest with
      | [] => ['~']
      | c2 :: rest2 =>
        if c2 = '0' then '~' :: replaceTilde0 rest2
        else '~' :: replaceTilde0 (c2 :: rest2)
    else c :: replaceTilde0 rest

/-- `escapePointerSegment` on strings. -/
def escapePointerSegment (s : String) : String :=
  String.mk (escapeChars s.toList)

/-- `unescapePointerSegment` (`src/utils.ts`): `~1` to `/` first, then
`~0` to `~`, each a global left-to-right replacement. -/
def unescapePointerSegment (s : String) : String :=
  String.mk (replaceTilde0 (replaceTilde1 s.toList))

/-- `s.startsWith(p)`. -/
def strStartsWith (s p : String) : Bool :=
  s.toList.take p.toList.length == p.toList

/-- Scan of one reference token for a bad escape: `true` iff the token
contains a `'~'` not immediately followed by `'0'` or `'1'`.  This is
the semantics shared by the escape checks of both pointer validators:
the regex `[^~]*(?:~[01][^~]*)*` anchored on both sides in
`src/utils.ts`, and the `indexOf('~')` loop in `src/validate.ts`. -/
def tildeScanBad : List Char → Bool
  | [] => false
  | c :: rest =>
    if c = '~' then
      match rest with
      | [] => true
      | c2 :: rest2 =>
        if c2 = '0' ∨ c2 = '1' then tildeScanBad rest2 else true
    else tildeScanBad rest

/-- Specification-side predicate for claim C9: the pointer contains a
`'~'` that is not immediately followed by `'0'` or `'1'` (including a
trailing `'~'`). -/
def hasBadTilde (p : String) : Prop :=
  ∃ i, p.toList.get? i = some '~' ∧
    ∀ c, p.toList.get? (i + 1) = some c → c ≠ '0' ∧ c ≠ '1'

/-- `validateJsonPointer` from `src/utils.ts` (lines 379-404): requires a
leading `/` for non-empty pointers and rejects any raw segment whose
`'~'`s are not escape sequences.  All its throws carry
`INVALID_POINTER`. -/
def validateJsonPointerU (pointer : String) : JsResult Unit :=
  if pointer ≠ "" ∧ ¬ strStartsWith pointer "/" then
    throwPE { code := .INVALID_POINTER }
  else
    let segments := (splitSlash pointer.toList).tailD []
    if segments.any (fun seg => seg.contains '~' && tildeScanBad seg) then
      throwPE { code := .INVALID_POINTER }
    else .ok ()

/-- One segment check of `validateJsonPointer` from `src/validate.ts`:
escape sequences, the first percent sign (must be followed by two hex
digits not running past the end), and control characters. -/
def vSegmentCheck (seg : List Char) : JsResult Unit :=
  if tildeScanBad seg then throwPE PatchError.invalidPointerFormat
  else
    let percentBad :=
      match seg.findIdx? (fun c => c = '%') with
      | none => false
      | some i =>
        i = seg.length - 1 ∨ i = seg.length - 2 ∨
          ¬ ((seg.drop (i + 1)).take 2).all (fun c => c.isDigit ∨
              ('A' ≤ c ∧ c ≤ 'F') ∨ ('a' ≤ c ∧ c ≤ 'f'))
    if percentBad then throwPE PatchError.invalidPointerFormat
    else if seg.any (fun c => (c.toNat ≤ 0x1f ∧ c.toNat ≠ 0x09) ∨ c.toNat = 0x7f) then
      throwPE PatchError.invalidPointerFormat
    else .ok ()

/-- `validateJsonPointer` from `src/validate.ts` (lines 20-79), the
validator invoked by the patch executor: empty and `"/"` pointers are
accepted outright; otherwise a leading `/` is required and every raw
segment must pass `vSegmentCheck`.  Every rejection throws
`invalidPointerFormat`, i.e. carries `INVALID_POINTER`. -/
def validateJsonPointerV (pointer : String) : JsResult Unit :=
  if pointer = "" then .ok ()
  else if ¬ strStartsWith pointer "/" then throwPE PatchError.invalidPointerFormat
  else if pointer = "/" then .ok ()
  else
    let segments := (splitSlash pointer.toList).tailD []
    segments.foldl (fun acc seg => acc >>= fun _ => vSegmentCheck seg) (.ok ())


/-! ## Pointer resolution (`src/utils.ts`) -/

/-- `parsePointer` (`src/utils.ts`): `''` is the root (no segments), any
other pointer must start with `/`; the remainder is split at `/` and each
raw token unescaped.  (The module-level parse cache memoizes this pure
function and is not modelled.) -/
def parsePointer (pointer : String) : JsResult (List String) :=
  if pointer = "" then .ok []
  else if ¬ strStartsWith pointer "/" then throwPE { code := .INVALID_POINTER }
  else .ok (((splitSlash pointer.toList).tailD []).map
    (fun cs => unescapePointerSegment (String.mk cs)))

/-- Traversal loop of `getValueByPointer`: before each access a current
value of `undefined`/`null` yields `undefined`; on an array the token
`'-'` yields `undefined`, otherwise `current[segment]` resolves a
canonical index on arrays, a key on objects, and `undefined` on
primitives.  A final `undefined` is an absent result. -/
def getWalk : Value → List String → Option Value
  | .undef, [] => none
  | current, [] => some current
  | .undef, _ :: _ => none
  | .null, _ :: _ => none
  | .arr xs, seg :: rest =>
    if seg = "-" then none else getWalk ((xs.getStr seg).getD .undef) rest
  | .obj fs, seg :: rest => getWalk ((fs.get? seg).getD .undef) rest
  | _, _ :: _ => none

/-- `getValueByPointer` (`src/utils.ts`, lines 74-91). -/
def getValueByPointer (obj : Value) (pointer : String) : JsResult (Option Value) :=
  if pointer = "" then .ok (some obj)
  else do
    let segments ← parsePointer pointer
    .ok (getWalk obj segments)

/-- An index argument as passed to `validateArrayIndex`: a string, an
integer number, or `nan` (covering both `NaN` and non-integer numbers,
which the `isNaN`/`Number.isInteger` guard rejects uniformly). -/
inductive JsIdx where
  | s (v : String)
  | n (v : Int)
  | nan

/-- `validateArrayIndex` (`src/utils.ts`, lines 406-437): the string
`'-'` maps to `length` when `allowEnd` and `length - 1` otherwise;
other strings go through `parseInt`; a `NaN`, non-integer or negative
index throws `ARRAY_INDEX_ERROR`; with `allowEnd` any non-negative
integer is accepted (the source comments that indices past the length
are allowed for sparse arrays); without it the index must be below the
length. -/
def validateArrayIndexNum (arr : Values) (numericIndex : Option Int)
    (allowEnd : Bool) : JsResult Int :=
  match numericIndex with
  | none => throwPE { code := .ARRAY_INDEX_ERROR }
  | some k =>
    if k < 0 then throwPE { code := .ARRAY_INDEX_ERROR }
    else if ¬ allowEnd ∧ (arr.length : Int) ≤ k then
      throwPE { code := .ARRAY_INDEX_ERROR }
    else .ok k

/-- Dispatch of `validateArrayIndex` on the `string | number` index. -/
def validateArrayIndex (arr : Values) (index : JsIdx) (allowEnd : Bool := false) :
    JsResult Int :=
  match index with
  | .s v =>
    if v = "-" then
      .ok (if allowEnd then (arr.length : Int) else (arr.length : Int) - 1)
    else validateArrayIndexNum arr (jsParseInt v) allowEnd
  | .n k => validateArrayIndexNum arr (some k) allowEnd
  | .nan => validateArrayIndexNum arr none allowEnd

/-- `isNumeric` (`src/utils.ts`, lines 161-164): `'-'` or a full
`-?\d+` numeral; an absent next segment (`undefined`) is not numeric. -/
def isNumericJs (s : Option String) : Bool :=
  match s with
  | none => false
  | some v =>
    v = "-" ||
      (match v.toList with
       | '-' :: ds => ds ≠ [] && ds.all Char.isDigit
       | ds => ds ≠ [] && ds.all Char.isDigit)

/-- Container created for a missing intermediate step of
`setValueByPointer`: an array when the segment after the current one (as
located by `parentSegments.indexOf(segment)`, i.e. by the first
occurrence of the segment string) is numeric or `'-'`, else an object. -/
def mkContainer (fullSegs parentSegs : List String) (seg : String) : Value :=
  if isNumericJs (fullSegs.get? (parentSegs.indexOf seg + 1)) then .arr .nil
  else .obj .nil

/-- Final step of `setValueByPointer`: on an array the last token (with
`'-'` as the length) is validated with `allowEnd` and the value spliced
in (JS `splice` clamps an oversized start to an append); on an object
the key is set; on anything else `TYPE_MISMATCH`. -/
def setLeaf (current : Value) (lastSeg : String) (value : Value) : JsResult Value :=
  match current with
  | .arr xs => do
    let indexNum : JsIdx :=
      if lastSeg = "-" then .n (xs.length : Int)
      else match jsParseInt lastSeg with
        | some k => .n k
        | none => .nan
    let n ← validateArrayIndex xs indexNum true
    .ok (.arr (xs.insertAt n.toNat value))
  | .obj fs => .ok (.obj (fs.set lastSeg value))
  | _ => throwPE { code := .TYPE_MISMATCH }

/-- Parent-segment loop of `setValueByPointer`: missing intermediate
containers are created (`current[index] = []` / `{}`), then the walk
descends through `current[segment]` (a string lookup, so a `'-'` or
non-canonical numeric segment descends into `undefined` and the next
step fails, as in the source).  The in-place mutation is modelled by
rebuilding the spine on the way out; a walk that throws after creating
a container discards the partial creation, which the mutating source
would leave behind (no claim in scope observes that state). -/
def setWalk (fullSegs parentSegs : List String) (lastSeg : String) (value : Value) :
    Value → List String → JsResult Value
  | current, [] => setLeaf current lastSeg value
  | current, seg :: rest =>
    match current with
    | .undef => throwPE { code := .INVALID_POINTER }
    | .null => throwPE { code := .INVALID_POINTER }
    | .arr xs => do
      let indexNum : JsIdx :=
        if seg = "-" then .n (xs.length : Int)
        else match jsParseInt seg with
          | some k => .n k
          | none => .nan
      let n ← validateArrayIndex xs indexNum true
      let xs' := if xs.hasIdx n.toNat then xs
        else xs.assign n.toNat (mkContainer fullSegs parentSegs seg)
      let child := (xs'.getStr seg).getD .undef
      let child' ← setWalk fullSegs parentSegs lastSeg value child rest
      .ok (.arr (xs'.setStr seg child'))
    | .obj fs => do
      let fs' := if fs.hasKey seg then fs
        else fs.set seg (mkContainer fullSegs parentSegs seg)
      let child := (fs'.get? seg).getD .undef
      let child' ← setWalk fullSegs parentSegs lastSeg value child rest
      .ok (.obj (fs'.set seg child'))
    | _ => throwPE { code := .TYPE_MISMATCH }

/-- `setValueByPointer` (`src/utils.ts`, lines 96-159): validates the
pointer (with the `src/utils.ts` validator), refuses the root, then
walks the parent segments and inserts at the last one. -/
def setValueByPointer (obj : Value) (pointer : String) (value : Value) :
    JsResult Value := do
  let _ ← validateJsonPointerU pointer
  let segments ← parsePointer pointer
  match segments.getLast? with
  | none => throwPE { code := .ROOT_OPERATION_ERROR }
  | some lastSeg =>
    setWalk segments segments.dropLast lastSeg value obj segments.dropLast

/-- Last step of `removeValueByPointer`: arrays take `'-'` as
`length - 1` or a `parseInt` index, return `undefined` when `NaN` or out
of range, else splice the element out; objects need the key present,
else `undefined`; `in` on a primitive (including `null`) is a host
`TypeError`. -/
def removeLeaf (current : Value) (lastSeg : String) : JsResult (Option Value × Value) :=
  match current with
  | .arr xs =>
    let idx : Option Int :=
      if lastSeg = "-" then some ((xs.length : Int) - 1) else jsParseInt lastSeg
    match idx with
    | none => .ok (none, current)
    | some i =>
      if i < 0 ∨ (xs.length : Int) ≤ i then .ok (none, current)
      else .ok (xs.get? i.toNat, .arr (xs.removeAt i.toNat))
  | .obj fs =>
    match fs.get? lastSeg with
    | none => .ok (none, .obj fs)
    | some v => .ok (some v, .obj (fs.remove lastSeg))
  | _ => .error .jsTypeError

/-- Parent loop plus last step of `removeValueByPointer`
(`src/utils.ts`, lines 216-271): a missing step yields `undefined`
without mutation; the in-place splice/delete is modelled by rebuilding
the spine on the way out. -/
def removeWalk : Value → List String → JsResult (Option Value × Value)
  | current, [] => .ok (none, current)
  | current, seg :: rest =>
    if rest = [] then removeLeaf current seg
    else match current with
    | .undef => .ok (none, .undef)
    | .null => .ok (none, .null)
    | .arr xs =>
      let idx : Option Int :=
        if seg = "-" then some ((xs.length : Int) - 1) else jsParseInt seg
      match idx with
      | none => .ok (none, .arr xs)
      | some i =>
        if i < 0 ∨ (xs.length : Int) ≤ i then .ok (none, .arr xs)
        else do
          let (removed, child') ← removeWalk ((xs.get? i.toNat).getD .undef) rest
          .ok (removed, .arr (xs.setAt i.toNat child'))
    | .obj fs =>
      match fs.get? seg with
      | none => .ok (none, .obj fs)
      | some child => do
        let (removed, child') ← removeWalk child rest
        .ok (removed, .obj (fs.set seg child'))
    | _ => .error .jsTypeError

/-- `removeValueByPointer` (`src/utils.ts`, lines 216-271): refuses the
root, walks to the parent and removes the addressed value, returning the
prior value (`none` models returning `undefined`) together with the
updated document. -/
def removeValueByPointer (obj : Value) (pointer : String) :
    JsResult (Option Value × Value) := do
  let segments ← parsePointer pointer
  match segments with
  | [] => throwPE { code := .ROOT_OPERATION_ERROR }
  | _ => removeWalk obj segments


/-! ## Patch executor (`src/patch.ts`) -/

/-- Operation kinds.  An unknown `op` string is unrepresentable in the
typed model; the executor's `default: throw invalidOperation` branch is
therefore unreachable here. -/
inductive OpKind where
  | add | remove | replace | move | copy | test
deriving DecidableEq, Repr

/-- A patch operation (`src/types.ts`): `path` is always present (the
empty string is a present-but-falsy path); `fromPath` models `from`,
`value` models `value` (`none` = field absent), `count` the non-standard
batched-remove count. -/
structure Op where
  op : OpKind
  path : String
  fromPath : Option String := none
  value : Option Value := none
  count : Option Int := none

/-- `{op: 'add', path, value}`. -/
def opAdd (path : String) (v : Value) : Op :=
  { op := .add, path := path, value := some v }

/-- `{op: 'remove', path}`. -/
def opRemove (path : String) : Op := { op := .remove, path := path }

/-- `{op: 'remove', path, count}`. -/
def opRemoveCount (path : String) (c : Int) : Op :=
  { op := .remove, path := path, count := some c }

/-- `{op: 'replace', path, value}`. -/
def opReplace (path : String) (v : Value) : Op :=
  { op := .replace, path := path, value := some v }

/-- `{op: 'move', path, from}`. -/
def opMove (path fromP : String) : Op :=
  { op := .move, path := path, fromPath := some fromP }

/-- `{op: 'copy', path, from}`. -/
def opCopy (path fromP : String) : Op :=
  { op := .copy, path := path, fromPath := some fromP }

/-- `{op: 'test', path, value}`. -/
def opTest (path : String) (v : Value) : Op :=
  { op := .test, path := path, value := some v }

/-- `handleAddOperation`. -/
def handleAddOperation (target : Value) (path : String) (value : Value) :
    JsResult Value :=
  setValueByPointer target path value

/-- `handleRemoveOperation`: the removal result is discarded, so a path
that does not resolve removes nothing and succeeds; a `count` on the
operation is ignored by the executor. -/
def handleRemoveOperation (target : Value) (path : String) : JsResult Value := do
  let (_, t) ← removeValueByPointer target path
  .ok t

/-- `handleReplaceOperation` (`src/patch.ts`, lines 50-56): remove the
addressed value; if nothing was there (`oldValue === undefined`) throw
`PatchError.invalidPointer(path)` — the code `INVALID_POINTER`; else set
the new value at the same path. -/
def handleReplaceOperation (target : Value) (path : String) (value : Value) :
    JsResult Value := do
  let (oldValue, t1) ← removeValueByPointer target path
  match oldValue with
  | none => throwPE (PatchError.invalidPointer path)
  | some .undef => throwPE (PatchError.invalidPointer path)
  | some _ => setValueByPointer t1 path value

/-- `handleMoveOperation`: a falsy `from` (absent or empty) is a missing
field; `from` is validated; a destination under the source
(`path.startsWith(from + '/')`) is `INVALID_OPERATION`; then the source
value is fetched, removed, and set at the destination. -/
def handleMoveOperation (target : Value) (path : String) (fromP : Option String) :
    JsResult Value :=
  match fromP with
  | none => throwPE (PatchError.missingField "move")
  | some f =>
    if f = "" then throwPE (PatchError.missingField "move")
    else do
      let _ ← validateJsonPointerV f
      if strStartsWith path (f ++ "/") then
        throwPE { code := .INVALID_OPERATION }
      else do
        let valueToMove ← getValueByPointer target f
        match valueToMove with
        | none => throwPE (PatchError.invalidPointer f)
        | some v => do
          let (_, t1) ← removeValueByPointer target f
          setValueByPointer t1 path v

/-- `handleCopyOperation`: like move, but the source is deep-cloned and
not removed. -/
def handleCopyOperation (target : Value) (path : String) (fromP : Option String) :
    JsResult Value :=
  match fromP with
  | none => throwPE (PatchError.missingField "copy")
  | some f =>
    if f = "" then throwPE (PatchError.missingField "copy")
    else do
      let _ ← validateJsonPointerV f
      let val ← getValueByPointer target f
      match val with
      | none => throwPE (PatchError.invalidPointer f)
      | some v => setValueByPointer target path (deepClone v)

/-- `handleTestOperation`: the current value must resolve and deep-equal
the operation value. -/
def handleTestOperation (target : Value) (path : String) (value : Value) :
    JsResult Value := do
  let currentVal ← getValueByPointer target path
  match currentVal with
  | none => throwPE (PatchError.invalidPointer path)
  | some v =>
    if deepEqual v value then .ok target
    else throwPE (PatchError.testFailed path)

/-- `applyOperation` (`src/patch.ts`, lines 105-149): validates the path
with the `src/validate.ts` validator, scans the value for circular
references (always clean on the acyclic trees of this model), and
dispatches on the operation kind.  The result is the updated document. -/
def applyOperation (target : Value) (op : Op) : JsResult Value := do
  let _ ← validateJsonPointerV op.path
  match op.op with
  | .add => handleAddOperation target op.path (op.value.getD .undef)
  | .remove => handleRemoveOperation target op.path
  | .replace => handleReplaceOperation target op.path (op.value.getD .undef)
  | .move => handleMoveOperation target op.path op.fromPath
  | .copy => handleCopyOperation target op.path op.fromPath
  | .test => handleTestOperation target op.path (op.value.getD .undef)

/-- `validateOperation` (`src/validate.ts`, lines 232-278): a falsy path
is only allowed for `test`; a present (non-empty) path is validated;
`add`/`replace`/`test` need a `value` field, `move`/`copy` a truthy,
valid `from`. -/
def validateOperation (op : Op) : JsResult Unit :=
  if op.path = "" ∧ op.op ≠ .test then
    throwPE { code := .MISSING_REQUIRED_FIELD }
  else do
    let _ ← (if op.path ≠ "" then validateJsonPointerV op.path else .ok ())
    match op.op with
    | .add | .replace | .test =>
      match op.value with
      | none => throwPE { code := .MISSING_REQUIRED_FIELD }
      | some _ => .ok ()
    | .move | .copy =>
      match op.fromPath with
      | none => throwPE { code := .MISSING_REQUIRED_FIELD }
      | some f =>
        if f = "" then throwPE { code := .MISSING_REQUIRED_FIELD }
        else validateJsonPointerV f
    | .remove => .ok ()

/-- The re-throw wrapper of `validatePatch`: a caught `PatchError` is
re-raised as a fresh `PatchError` with the same code (path and operation
fields are not carried over); any other exception becomes
`INVALID_OPERATION`. -/
def rewrapValidate (e : Thrown) : Thrown :=
  match e with
  | .patchError pe => .patchError { code := pe.code }
  | .jsTypeError => .patchError { code := .INVALID_OPERATION }

/-- Loop of `validatePatch` with the accumulated `seenPaths` set: each
operation is validated, and a `remove` or `replace` whose (truthy) path
was already recorded by an earlier `remove`/`replace` raises
`INVALID_OPERATION` (`Duplicate path in sequential operations`). -/
def validatePatchLoop : List String → List Op → JsResult Unit
  | _, [] => .ok ()
  | seen, op :: rest =>
    match validateOperation op with
    | .error e => .error (rewrapValidate e)
    | .ok _ =>
      if op.path ≠ "" ∧ (op.op = .remove ∨ op.op = .replace) then
        if op.path ∈ seen then
          .error (.patchError { code := .INVALID_OPERATION })
        else validatePatchLoop (op.path :: seen) rest
      else validatePatchLoop seen rest

/-- `validatePatch` (`src/validate.ts`, lines 283-315).  The input is a
typed operation list, so the `Array.isArray` guard always passes. -/
def validatePatch (patch : List Op) : JsResult Unit :=
  validatePatchLoop [] patch

/-- Sequential application loop of `applyPatch`. -/
def applyOps : Value → List Op → JsResult Value
  | t, [] => .ok t
  | t, op :: rest => do
    let t' ← applyOperation t op
    applyOps t' rest

/-- `applyPatch` (`src/patch.ts`, lines 154-168): validate the patch
shape first (on by default), then apply the operations strictly in
order, stopping at the first failure.  The updated document is
returned (the source mutates in place). -/
def applyPatch (target : Value) (patch : List Op) (validate : Bool := true) :
    JsResult Value := do
  let _ ← (if validate then validatePatch patch else .ok ())
  applyOps target patch

/-- Like `applyOps` but a failure also reports the document state at the
failing operation (the in-place state `applyPatchWithRollback` must
restore).  A failing operation is modelled as leaving the document as it
was before that operation; the few paths on which the mutating source
can fail after a partial write (container creation then a later throw
inside one `setValueByPointer`) are noted at their definitions and not
exercised by any theorem below. -/
def applyOpsTrace : Value → List Op → Except (Thrown × Value) Value
  | t, [] => .ok t
  | t, op :: rest =>
    match applyOperation t op with
    | .ok t' => applyOpsTrace t' rest
    | .error e => .error (e, t)

/-- The restore step of `applyPatchWithRollback`:
`Object.keys(target).forEach(k => delete target[k])` followed by
`Object.assign(target, backup)`.  On an object this rebuilds exactly the
backup.  On an array, deleting index properties does not shrink
`length`, and `Object.assign` writes the backup's indices, so a
document that grew keeps its grown length with holes (`undef`) past the
backup's last index. -/
def rollbackRestore (failState backup : Value) : Value :=
  match failState, backup with
  | .arr a, .arr b =>
    if a.length ≤ b.length then .arr b
    else .arr (Values.ofList (b.toList ++ List.replicate (a.length - b.length) .undef))
  | _, _ => backup

/-- The re-throw of `applyPatchWithRollback`: a `PatchError` is re-raised
as is, anything else is wrapped as `INTERNAL_ERROR`. -/
def rewrapRollback (e : Thrown) : Thrown :=
  match e with
  | .patchError pe => .patchError pe
  | .jsTypeError => .patchError { code := .INTERNAL_ERROR }

/-- `applyPatchWithRollback` (`src/patch.ts`, lines 186-208): deep-clone
a backup, run `applyPatch`; on failure clear the document's keys,
`Object.assign` the backup back in, and re-raise.  The error case
carries the document state observable after the call. -/
def applyPatchWithRollback (target : Value) (patch : List Op)
    (validate : Bool := true) : Except (Thrown × Value) Value :=
  let backup := deepClone target
  match (if validate then validatePatch patch else .ok ()) with
  | .error e => .error (rewrapRollback e, rollbackRestore target backup)
  | .ok _ =>
    match applyOpsTrace target patch with
    | .ok t => .ok t
    | .error (e, s) => .error (rewrapRollback e, rollbackRestore s backup)


/-! ## LCS engine (`src/lcs.ts`) -/

/-- A memoized LCS result: the indices into the first array and the LCS
length. -/
structure LCSResult where
  indices : List Nat
  lcsLen : Nat
deriving DecidableEq, Repr

/-- The LCS cache: insertion-ordered key/value entries (a JS `Map`).
The `lastUsed` timestamps of the source feed only the approximate-LRU
cleanup that runs every 100th eviction at capacity; entries are modelled
without them. -/
abbrev LCSCache := List (String × LCSResult)

/-- `Map.get`. -/
def cacheGet (cache : LCSCache) (key : String) : Option LCSResult :=
  (cache.find? (fun e => e.1 = key)).map (fun e => e.2)

/-- `Map.set`: overwrite an existing key in place, else append. -/
def cacheInsert : LCSCache → String → LCSResult → LCSCache
  | [], key, v => [(key, v)]
  | e :: rest, key, v =>
    if e.1 = key then (key, v) :: rest else e :: cacheInsert rest key v

/-- The `set` of `createMemoCache` (`src/lcs.ts`, lines 34-55): at
capacity the oldest entry is deleted first (the every-100th sorted
cleanup is unreachable at the cache sizes below). -/
def cacheSet (cache : LCSCache) (key : String) (v : LCSResult)
    (maxSize : Nat := 1000) : LCSCache :=
  if maxSize ≤ cache.length then cacheInsert (cache.drop 1) key v
  else cacheInsert cache key v

mutual

/-- JS template-literal conversion `String(value)` as used inside the
hash: arrays join their elements with commas, objects print as
`[object Object]`. -/
def jsTemplate : Value → String
  | .null => "null"
  | .undef => "undefined"
  | .bool b => if b then "true" else "false"
  | .num n => toString n
  | .str s => s
  | .arr xs => jsTemplateList xs
  | .obj _ => "[object Object]"

def jsTemplateList : Values → String
  | .nil => ""
  | .cons v .nil => jsTemplate v
  | .cons v rest => jsTemplate v ++ "," ++ jsTemplateList rest

end

/-- `hashValue` (`src/lcs.ts`, lines 152-178): a shallow, lossy sample of
a value.  An array contributes its length and the hash of its first
element; an object contributes `i`/`k` plus its `id`/`key` property when
one is present (and not `undefined`), else only its key count; scalars
are tagged by type. -/
def hashValue : Value → String
  | .null => "n"
  | .undef => "u"
  | .arr xs =>
    "a" ++ toString xs.length ++ ":" ++
      (match xs with
       | .nil => "u"
       | .cons h _ => hashValue h)
  | .obj fs =>
    match fs.get? "id" with
    | some .undef | none =>
      (match fs.get? "key" with
       | some .undef | none => "o" ++ toString fs.length
       | some kv => "k" ++ jsTemplate kv)
    | some idv => "i" ++ jsTemplate idv
  | .num n => "d" ++ toString n
  | .bool b => "b" ++ (if b then "true" else "false")
  | .str s => "s" ++ toString s.length ++ ":" ++ (s.take 10)

/-- `hashArray` (`src/lcs.ts`, lines 132-150): hash of the elements at
the sampled indices (multiples of the step), colon-separated, plus the
last element when the stepping missed it. -/
def hashArray (arr : List Value) : String :=
  match arr with
  | [] => "0"
  | _ =>
    let len := arr.length
    let samplePoints := min 20 len
    let step := max 1 (len / samplePoints)
    let sampled := (List.range len).filter (fun i => i % step = 0)
    let hash := String.join (sampled.map
      (fun i => hashValue ((arr.get? i).getD .undef) ++ ":"))
    if 1 < len ∧ (len - 1) % step ≠ 0 then
      hash ++ hashValue ((arr.get? (len - 1)).getD .undef)
    else hash

/-- `getLCSCacheKey` (`src/lcs.ts`, lines 125-130): lengths plus the two
sampling hashes.  The hash is lossy, so distinct array pairs can share a
key. -/
def getLCSCacheKey (arr1 arr2 : List Value) : String :=
  toString arr1.length ++ ":" ++ toString arr2.length ++ ":" ++
    hashArray arr1 ++ ":" ++ hashArray arr2

/-- One inner step of the DP row construction: `left` is the entry just
written (`matrix[i][j-1]`), the list argument holds the previous row
from position `j-1` on. -/
def lcsRowGo (ai : Value) : Nat → List Nat → List Value → List Nat
  | _, _, [] => []
  | _, [], _ => []
  | left, diag :: prevRest, bj :: bRest =>
    let up := prevRest.headD 0
    let cur := if deepEqual ai bj then diag + 1 else max up left
    cur :: lcsRowGo ai cur prevRest bRest

/-- Row `i` of the LCS matrix from row `i-1`. -/
def lcsRow (prev : List Nat) (ai : Value) (b : List Value) : List Nat :=
  0 :: lcsRowGo ai 0 prev b

/-- Rows `1..n` of the LCS matrix. -/
def lcsMatrixGo (b : List Value) : List Nat → List Value → List (List Nat)
  | _, [] => []
  | prev, ai :: aRest =>
    let r := lcsRow prev ai b
    r :: lcsMatrixGo b r aRest

/-- The full `(|a|+1) × (|b|+1)` DP matrix of `findLCS`
(`src/lcs.ts`, lines 80-93), row 0 all zeroes, built with `deepEqual`
element comparison. -/
def lcsMatrix (a b : List Value) : List (List Nat) :=
  let row0 := List.replicate (b.length + 1) 0
  row0 :: lcsMatrixGo b row0 a

/-- `matrix[i][j]` lookup. -/
def mGet (m : List (List Nat)) (i j : Nat) : Nat :=
  (((m.get? i).getD []).get? j).getD 0

/-- The backtracking loop of `findLCS` (`src/lcs.ts`, lines 96-110),
structured on a fuel that bounds the strictly decreasing `i + j`. -/
def lcsBacktrack (a b : List Value) (m : List (List Nat)) :
    Nat → Nat → Nat → List Nat → List Nat
  | 0, _, _, acc => acc
  | _ + 1, 0, _, acc => acc
  | _ + 1, _, 0, acc => acc
  | fuel + 1, i + 1, j + 1, acc =>
    if deepEqual ((a.get? i).getD .undef) ((b.get? j).getD .undef) then
      lcsBacktrack a b m fuel i j (i :: acc)
    else if mGet m i (j + 1) > mGet m (i + 1) j then
      lcsBacktrack a b m fuel i (j + 1) acc
    else lcsBacktrack a b m fuel (i + 1) j acc

/-- The uncached computation of `findLCS`: build the DP matrix and
backtrack.  This is what `findLCS` computes and caches on a cache
miss. -/
def findLCSPure (a b : List Value) : List Nat :=
  if a.length = 0 ∨ b.length = 0 then []
  else lcsBacktrack a b (lcsMatrix a b) (a.length + b.length) a.length b.length []

/-- `findLCS` (`src/lcs.ts`, lines 69-120) with the module-level cache
made explicit: empty inputs short-circuit; otherwise the sampled cache
key is looked up and a hit returns the cached indices unconditionally;
a miss computes the DP result and stores it. -/
def findLCS (cache : LCSCache) (arr1 arr2 : List Value) :
    List Nat × LCSCache :=
  if arr1.length = 0 ∨ arr2.length = 0 then ([], cache)
  else
    let key := getLCSCacheKey arr1 arr2
    match cacheGet cache key with
    | some cached => (cached.indices, cache)
    | none =>
      let m := lcsMatrix arr1 arr2
      let result := lcsBacktrack arr1 arr2 m (arr1.length + arr2.length)
        arr1.length arr2.length []
      (result, cacheSet cache key ⟨result, mGet m arr1.length arr2.length⟩)

/-- `clearLCSCache`. -/
def clearLCSCache : LCSCache := []

/-! ## Array differ (`src/array-utils.ts`, the variant at lines 1-332) -/

/-- Internal array operation kinds. -/
inductive AOType where
  | add | remove | move
deriving DecidableEq, Repr

/-- `ArrayOperation` (`src/array-utils.ts`, lines 6-11). -/
structure ArrayOp where
  type : AOType
  index : Int
  value : Option Value := none
  fromIndex : Option Int := none

/-- JS `===`/SameValueZero equality as used for `Map` keys holding array
elements: primitives compare by value; arrays and objects are compared
by reference and the elements reaching the differ are distinct nodes, so
they never compare equal here. -/
def jsStrictEq : Value → Value → Bool
  | .null, .null => true
  | .undef, .undef => true
  | .bool a, .bool b => a == b
  | .num a, .num b => a == b
  | .str a, .str b => a == b
  | _, _ => false

/-- The value-position map of `generateArrayOperations`, keyed by JS map
key equality. -/
abbrev PosMap := List (Value × List Int)

/-- `positions.get(value) || []`. -/
def posGet (m : PosMap) (v : Value) : List Int :=
  ((m.find? (fun e => jsStrictEq e.1 v)).map (fun e => e.2)).getD []

/-- `positions.set(value, l)` (overwrite or append). -/
def posSet : PosMap → Value → List Int → PosMap
  | [], v, l => [(v, l)]
  | e :: rest, v, l =>
    if jsStrictEq e.1 v then (v, l) :: rest else e :: posSet rest v l

/-- `positions.delete(value)`. -/
def posDelete : PosMap → Value → PosMap
  | [], _ => []
  | e :: rest, v => if jsStrictEq e.1 v then rest else e :: posDelete rest v

/-- Remove one occurrence of an index from a list (`indexOf` then
`splice`; absent index is a no-op). -/
def eraseIdx : List Int → Int → List Int
  | [], _ => []
  | i :: rest, j => if i = j then rest else i :: eraseIdx rest j

/-- `buildValuePositions` (`src/array-utils.ts`, lines 197-206). -/
def buildValuePositions (arr : List Value) : PosMap :=
  (List.range arr.length).foldl
    (fun m i =>
      let v := (arr.get? i).getD .undef
      posSet m v (posGet m v ++ [(i : Int)]))
    []

/-- `removeValuePosition` (`src/array-utils.ts`, lines 208-221). -/
def removeValuePosition (m : PosMap) (v : Value) (index : Int) : PosMap :=
  let l := eraseIdx (posGet m v) index
  if l = [] then posDelete m v else posSet m v l

/-- The main loop of `generateArrayOperations` (`src/array-utils.ts`,
lines 262-332), with a fuel bounding the iteration count (each pass
advances `oldIndex` or `newIndex`, so `|old| + |new|` passes suffice):
LCS members are skipped; a new element still ahead in the old array
becomes a `move`; otherwise equal heads are skipped, unequal heads
become `remove`+`add` (with the position bookkeeping erasing
`oldIndex - 1`, as in the source), a exhausted old array appends, and
leftover old elements are removed. -/
def genLoop (oldArr newArr : List Value) (lcsIndices : List Nat) :
    Nat → Nat → Nat → Nat → PosMap → List ArrayOp → List ArrayOp
  | 0, _, _, _, _, acc => acc
  | fuel + 1, oldIndex, newIndex, lcsPos, positions, acc =>
    if newIndex < newArr.length ∨ oldIndex < oldArr.length then
      if lcsIndices.get? lcsPos = some oldIndex then
        genLoop oldArr newArr lcsIndices fuel (oldIndex + 1) (newIndex + 1)
          (lcsPos + 1) positions acc
      else if newIndex < newArr.length then
        let value := (newArr.get? newIndex).getD .undef
        match (posGet positions value).find? (fun pos => (oldIndex : Int) < pos) with
        | some bestMovePos =>
          genLoop oldArr newArr lcsIndices fuel oldIndex (newIndex + 1) lcsPos
            (removeValuePosition positions value bestMovePos)
            (acc ++ [{ type := .move, index := (newIndex : Int),
                       fromIndex := some bestMovePos }])
        | none =>
          if oldIndex < oldArr.length then
            let oldValue := (oldArr.get? oldIndex).getD .undef
            if deepEqual oldValue value then
              genLoop oldArr newArr lcsIndices fuel (oldIndex + 1) (newIndex + 1)
                lcsPos positions acc
            else
              genLoop oldArr newArr lcsIndices fuel (oldIndex + 1) (newIndex + 1)
                lcsPos
                (removeValuePosition positions oldValue ((oldIndex : Int) - 1))
                (acc ++ [{ type := .remove, index := (oldIndex : Int),
                           value := some oldValue },
                         { type := .add, index := (newIndex : Int),
                           value := some value }])
          else
            genLoop oldArr newArr lcsIndices fuel oldIndex (newIndex + 1) lcsPos
              positions
              (acc ++ [{ type := .add, index := (newIndex : Int),
                         value := some value }])
      else
        let value := (oldArr.get? oldIndex).getD .undef
        genLoop oldArr newArr lcsIndices fuel (oldIndex + 1) newIndex lcsPos
          (removeValuePosition positions value (oldIndex : Int))
          (acc ++ [{ type := .remove, index := (oldIndex : Int),
                     value := some value }])
    else acc

/-- `generateArrayOperations` (`src/array-utils.ts`, lines 262-332).  The
module-level LCS cache is passed explicitly and empty by default (a
fresh cache misses, so `findLCS` computes the DP result). -/
def generateArrayOperations (oldArr newArr : List Value)
    (cache : LCSCache := []) : List ArrayOp :=
  let lcsIndices := (findLCS cache oldArr newArr).1
  genLoop oldArr newArr lcsIndices (oldArr.length + newArr.length) 0 0 0
    (buildValuePositions oldArr) []

/-- `isSequentialOperation` (`src/array-utils.ts`, lines 110-125):
consecutive ascending adds or consecutive descending removes extend a
batch; moves never do. -/
def isSequentialOperation (prev curr : ArrayOp) : Bool :=
  if prev.type ≠ curr.type then false
  else match prev.type with
    | .add => curr.index == prev.index + 1
    | .remove => curr.index == prev.index - 1
    | .move => false

/-- Strictly ascending run check used by the add branch of
`createBatchOperation`. -/
def ascendingRun : List ArrayOp → Bool
  | [] => true
  | [_] => true
  | a :: b :: rest => (b.index == a.index + 1) && ascendingRun (b :: rest)

/-- Strictly descending run check used by the remove branch of
`createBatchOperation`. -/
def descendingRun : List ArrayOp → Bool
  | [] => true
  | [_] => true
  | a :: b :: rest => (b.index == a.index - 1) && descendingRun (b :: rest)

/-- `${i}` for the fromIndex field (an absent `fromIndex` prints as
`undefined`, as JS template interpolation would). -/
def fromIndexStr (i : Option Int) : String :=
  match i with
  | some k => toString k
  | none => "undefined"

/-- `createBatchOperation` (`src/array-utils.ts`, lines 127-195): a
single add keeps its value; a truly ascending add run becomes one add
whose value is the array of batched values; a descending remove run
becomes one remove at the last (lowest) index with a `count`; a
non-sequential remove batch falls back to a plain remove at the first
index; a move becomes the corresponding `move` operation. -/
def createBatchOperation (batch : List ArrayOp) : Op :=
  let first := batch.headD { type := .add, index := 0 }
  let last := batch.getLastD { type := .add, index := 0 }
  match first.type with
  | .add =>
    if batch.length = 1 then
      opAdd ("/" ++ toString first.index) (first.value.getD .undef)
    else if ascendingRun batch then
      opAdd ("/" ++ toString first.index)
        (vArr (batch.map (fun op => op.value.getD .undef)))
    else opAdd ("/" ++ toString first.index) (first.value.getD .undef)
  | .remove =>
    if batch.length = 1 ∨
        (1 < batch.length ∧ last.index = first.index - ((batch.length : Int) - 1) ∧
          descendingRun batch) then
      opRemoveCount ("/" ++ toString last.index) (batch.length : Int)
    else opRemove ("/" ++ toString first.index)
  | .move =>
    opMove ("/" ++ toString first.index) ("/" ++ fromIndexStr first.fromIndex)

/-- The accumulation loop of `batchArrayOperations`: the current batch is
extended while the kind matches, the batch is under `maxBatchSize` and
the next operation is sequential; otherwise it is flushed. -/
def batchLoop (maxBatchSize : Nat) : Option (List ArrayOp) → List ArrayOp → List Op
  | none, [] => []
  | some cb, [] => [createBatchOperation cb]
  | none, op :: rest => batchLoop maxBatchSize (some [op]) rest
  | some cb, op :: rest =>
    if (cb.headD { type := .add, index := 0 }).type ≠ op.type then
      createBatchOperation cb :: batchLoop maxBatchSize (some [op]) rest
    else if cb.length < maxBatchSize ∧
        isSequentialOperation (cb.getLastD { type := .add, index := 0 }) op then
      batchLoop maxBatchSize (some (cb ++ [op])) rest
    else
      createBatchOperation cb :: batchLoop maxBatchSize (some [op]) rest

/-- `batchArrayOperations` (`src/array-utils.ts`, lines 79-108). -/
def batchArrayOperations (operations : List ArrayOp)
    (maxBatchSize : Nat := 100) : List Op :=
  batchLoop maxBatchSize none operations


/-! ## Array diff wrappers (`src/diff-utils.ts`, plus the `toJsonPatch` /
`optimizeJsonPatch` helpers it imports from the second `array-utils`
variant in the repository) -/

/-- `getArrayPath` (`array-utils`, second variant): split a path at its
last `/` when the final token is `-` or a digit run. -/
def getArrayPath (path : String) : Option (String × String) :=
  match (splitSlash path.toList).reverse with
  | [] => none
  | [_] => none
  | last :: revInit =>
    if last = ['-'] ∨ (last ≠ [] ∧ last.all Char.isDigit) then
      some (String.intercalate "/" (revInit.reverse.map String.mk), String.mk last)
    else none

/-- `toJsonPatch` (`array-utils`, second variant): serialize internal
array operations at a base path; batched information (`count`) is not
produced here. -/
def toJsonPatch (operations : List ArrayOp) (basePath : String := "") : List Op :=
  operations.map (fun op =>
    match op.type with
    | .move => opMove (basePath ++ "/" ++ toString op.index)
        (basePath ++ "/" ++ fromIndexStr op.fromIndex)
    | .add => opAdd (basePath ++ "/" ++ toString op.index) (op.value.getD .undef)
    | .remove => opRemove (basePath ++ "/" ++ toString op.index))

/-- `fromJsonPatch` (`array-utils`, second variant): parse add/remove/move
operations back into array operations, skipping anything whose path or
index does not parse; a parsed `remove` carries no value. -/
def fromJsonPatch (patch : List Op) : List ArrayOp :=
  patch.filterMap (fun op =>
    match getArrayPath op.path with
    | none => none
    | some (_, idxStr) =>
      match jsParseInt idxStr with
      | none => none
      | some index =>
        match op.op with
        | .move =>
          match op.fromPath.bind (fun f => getArrayPath f) with
          | none => none
          | some (_, fIdxStr) =>
            match jsParseInt fIdxStr with
            | none => none
            | some fromIndex =>
              some { type := .move, index := index, fromIndex := some fromIndex }
        | .add => some { type := .add, index := index, value := op.value }
        | .remove => some { type := .remove, index := index }
        | _ => none)

/-- JS `===` on possibly-absent values (`undefined === undefined` holds). -/
def jsStrictEqOpt : Option Value → Option Value → Bool
  | none, none => true
  | some a, some b => jsStrictEq a b
  | _, _ => false

/-- `optimizeArrayOperations` (`array-utils`, second variant): rewrite an
adjacent `remove` + `add` of strictly equal payloads into a `move`.
(A `remove` parsed by `fromJsonPatch` has no value, so after a
round-trip through it this only fires on adds of `undefined`.) -/
def optimizeArrayOps2 : List ArrayOp → List ArrayOp
  | [] => []
  | [op] => [op]
  | cur :: next :: rest =>
    if cur.type = .remove ∧ next.type = .add ∧ jsStrictEqOpt cur.value next.value then
      { type := .move, index := next.index, fromIndex := some cur.index,
        value := cur.value } :: optimizeArrayOps2 rest
    else cur :: optimizeArrayOps2 (next :: rest)

/-- `optimizeJsonPatch` (`array-utils`, second variant). -/
def optimizeJsonPatch (patch : List Op) : List Op :=
  toJsonPatch (optimizeArrayOps2 (fromJsonPatch patch)) ""

/-- The options record destructured by `diffArrayWithLCS`. -/
structure DiffArrayParams where
  checkCircular : Bool := true
  maxBatchSize : Nat := 100
  batchArrayOps : Bool := false
  basePath : String := ""

/-- Destructuring a plain string against an options object pattern finds
none of the fields, so every option takes its default.  This is what
happens on the `diffArraySimple(oldArr, newArr, basePath)` and
`diffArrayWithLCS(oldArr, newArr, basePath, {...})` call sites in
`src/diff.ts`, which pass the base path positionally where the
`src/diff-utils.ts` signatures expect a params object (the fourth
argument is ignored there). -/
def paramsOfString (_s : String) : DiffArrayParams := {}

/-- `diffArraySimple` (`src/diff-utils.ts`, lines 71-123): positional
replaces over the common prefix (both branches of the nested-object
special case emit the same replace), adds for the new tail, removes for
the old tail emitted back-to-front. -/
def diffArraySimple (oldArr newArr : List Value) (params : DiffArrayParams) :
    List Op :=
  let basePath := params.basePath
  let minLen := min oldArr.length newArr.length
  let replaces := (List.range minLen).filterMap (fun i =>
    if deepEqual ((oldArr.get? i).getD .undef) ((newArr.get? i).getD .undef) then
      none
    else some (opReplace (basePath ++ "/" ++ toString i)
      ((newArr.get? i).getD .undef)))
  let adds := ((List.range newArr.length).drop minLen).map (fun i =>
    opAdd (basePath ++ "/" ++ toString i) ((newArr.get? i).getD .undef))
  let removes := (((List.range oldArr.length).drop minLen).reverse).map (fun i =>
    opRemove (basePath ++ "/" ++ toString i))
  replaces ++ adds ++ removes

/-- Prefix every path (and `from`) of a patch with a base path
(the final `patch.map` of `diffArrayWithLCS`). -/
def prefixPatch (basePath : String) (patch : List Op) : List Op :=
  patch.map (fun op =>
    { op with path := basePath ++ op.path,
              fromPath := op.fromPath.map (fun f => basePath ++ f) })

/-- `diffArrayWithLCS` (`src/diff-utils.ts`, lines 21-65): single-element
changes of short equal-length arrays go through `diffArraySimple`;
otherwise the LCS-based operations are either batched or serialized and
"optimized", and the base path is prefixed onto the result.  The
circular-reference check never fires on this model's acyclic trees. -/
def diffArrayWithLCS (oldArr newArr : List Value) (params : DiffArrayParams) :
    List Op :=
  let diffCount := (List.range (min oldArr.length newArr.length)).countP (fun i =>
    ¬ deepEqual ((oldArr.get? i).getD .undef) ((newArr.get? i).getD .undef))
  let isSimpleChange :=
    oldArr.length = newArr.length ∧ oldArr.length ≤ 3 ∧ diffCount = 1
  if isSimpleChange then
    diffArraySimple oldArr newArr { basePath := params.basePath }
  else
    let operations := generateArrayOperations oldArr newArr
    let patch :=
      if params.batchArrayOps then batchArrayOperations operations params.maxBatchSize
      else optimizeJsonPatch (toJsonPatch operations "")
    prefixPatch params.basePath patch

/-! ## Structural differ (`src/diff.ts`) -/

/-- `CreateDiffOptions` with the source's defaults (`detectMove` and
`batchArrayOps` absent are falsy; `checkCircular` defaults on;
`maxDepth` absent skips the depth validation). -/
structure CreateDiffOptions where
  detectMove : Bool := false
  batchArrayOps : Bool := false
  maxDepth : Option Nat := none
  checkCircular : Bool := true
  maxBatchSize : Option Nat := none

/-- `isObject`: non-null object or array. -/
def isObjectV : Value → Bool
  | .arr _ => true
  | .obj _ => true
  | _ => false

/-- `isEmptyObject`. -/
def isEmptyObject : Value → Bool
  | .obj fs => fs.length = 0
  | _ => false

/-- `isNestedStructure`: an array, or a non-empty object. -/
def isNestedStructure (v : Value) : Bool :=
  match v with
  | .arr _ => true
  | .obj fs => fs.length ≠ 0
  | _ => false

/-- `concatPath`. -/
def concatPath (basePath : String) (key : String) : String :=
  if basePath = "" then "/" ++ escapePointerSegment key
  else basePath ++ "/" ++ escapePointerSegment key

/-- `handlePrimitiveValues` (`src/diff.ts`, lines 92-110): equal values
diff to nothing; an absent old is an add, an absent new a remove, else a
replace, all at the base path (or `/` at the root). -/
def handlePrimitiveValues (oldObj newObj : Value) (basePath : String) : List Op :=
  if deepEqual oldObj newObj then []
  else
    let p := if basePath = "" then "/" else basePath
    match oldObj, newObj with
    | .undef, _ => [opAdd p newObj]
    | _, .undef => [opRemove p]
    | _, _ => [opReplace p newObj]

mutual

/-- `validateMaxDepth` (`src/validate.ts`, lines 156-175). -/
def validateMaxDepth (obj : Value) (maxDepth : Nat) (currentDepth : Nat) :
    JsResult Unit :=
  if currentDepth > maxDepth then throwPE { code := .MAX_DEPTH_EXCEEDED }
  else match obj with
    | .arr xs => validateMaxDepthValues xs maxDepth currentDepth
    | .obj fs => validateMaxDepthFields fs maxDepth currentDepth
    | _ => .ok ()

def validateMaxDepthValues (xs : Values) (maxDepth : Nat) (currentDepth : Nat) :
    JsResult Unit :=
  match xs with
  | .nil => .ok ()
  | .cons v rest => do
    let _ ← validateMaxDepth v maxDepth (currentDepth + 1)
    validateMaxDepthValues rest maxDepth currentDepth

def validateMaxDepthFields (fs : Fields) (maxDepth : Nat) (currentDepth : Nat) :
    JsResult Unit :=
  match fs with
  | .nil => .ok ()
  | .cons _ v rest => do
    let _ ← validateMaxDepth v maxDepth (currentDepth + 1)
    validateMaxDepthFields rest maxDepth currentDepth

end

/-- `handleArrays` (`src/diff.ts`, lines 112-125): with move detection
the LCS differ, else the simple positional differ.  Both receive the
base path as a positional string where a params object is expected, so
it degrades to the defaults (see `paramsOfString`). -/
def handleArrays (oldArr newArr : List Value) (basePath : String)
    (options : CreateDiffOptions) : List Op :=
  if options.detectMove then
    diffArrayWithLCS oldArr newArr (paramsOfString basePath)
  else
    diffArraySimple oldArr newArr (paramsOfString basePath)

/-- The removed-tail loop of `handleNestedArrays` (`src/diff.ts`,
lines 175-181): one remove per surplus old element, at descending
indices `oldLen-1 .. newLen`. -/
def nestedRemoves (basePath : String) (oldLen newLen : Nat) : List Op :=
  (List.range (oldLen - newLen)).map (fun k =>
    opRemove (basePath ++ "/" ++ toString (oldLen - 1 - k)))

/-- The added-tail loop of `handleNestedArrays` when the old side is
empty (the only case in which an object opposite an array reaches it):
every new element becomes an add. -/
def nestedAddsAll (basePath : String) (i : Nat) : Values → List Op
  | .nil => []
  | .cons nv nrest =>
    opAdd (basePath ++ "/" ++ toString i) nv :: nestedAddsAll basePath (i + 1) nrest

mutual

/-- `createPatch` (`src/diff.ts`, lines 42-90): primitives short-circuit;
then (optional) depth validation and circular scan of the new value;
arrays with nested structure diff element-wise, flat arrays go to
`handleArrays`; objects diff removed keys (old order) then added/changed
keys (new order). -/
def createPatch (oldObj newObj : Value) (basePath : String := "")
    (options : CreateDiffOptions := {}) (currentDepth : Nat := 0) :
    JsResult (List Op) :=
  if ¬ isObjectV oldObj ∨ ¬ isObjectV newObj then
    .ok (handlePrimitiveValues oldObj newObj basePath)
  else do
    let _ ← (match options.maxDepth with
      | some md => validateMaxDepth newObj md currentDepth
      | none => .ok ())
    match oldObj, newObj with
    | .arr oldXs, .arr newXs =>
      if (oldXs.toList.any isNestedStructure) ∨ (newXs.toList.any isNestedStructure) then do
        let common ← handleNestedGo basePath options currentDepth 0 oldXs newXs
        .ok (common ++ nestedRemoves basePath oldXs.length newXs.length)
      else .ok (handleArrays oldXs.toList newXs.toList basePath options)
    | .arr oldXs, .obj _ =>
      -- the non-array side becomes the empty array; with an empty new
      -- array the common/added loops of handleNestedArrays are empty
      if oldXs.toList.any isNestedStructure then
        .ok (nestedRemoves basePath oldXs.length 0)
      else .ok (handleArrays oldXs.toList [] basePath options)
    | .obj _, .arr newXs =>
      -- with an empty old array the common loop is empty and every new
      -- element is added; there is nothing to remove
      if newXs.toList.any isNestedStructure then
        .ok (nestedAddsAll basePath 0 newXs)
      else .ok (handleArrays [] newXs.toList basePath options)
    | .obj oldFs, .obj newFs => do
      let upd ← handleObjectsGo oldFs basePath options currentDepth newFs
      .ok ((oldFs.keys.filter (fun k => ¬ newFs.hasKey k)).map
        (fun k => opRemove (concatPath basePath k)) ++ upd)
    | _, _ => .ok []

/-- The common-prefix and added-tail loops of `handleNestedArrays`
(`src/diff.ts`, lines 139-173): recurse on unequal pairs, add the new
tail. -/
def handleNestedGo (basePath : String) (options : CreateDiffOptions)
    (currentDepth : Nat) (i : Nat) :
    Values → Values → JsResult (List Op)
  | _, .nil => .ok []
  | .nil, .cons nv nrest => do
    let rest ← handleNestedGo basePath options currentDepth (i + 1) .nil nrest
    .ok (opAdd (basePath ++ "/" ++ toString i) nv :: rest)
  | .cons ov orest, .cons nv nrest => do
    let here ←
      if deepEqual ov nv then .ok []
      else createPatch ov nv (basePath ++ "/" ++ toString i) options (currentDepth + 1)
    let rest ← handleNestedGo basePath options currentDepth (i + 1) orest nrest
    .ok (here ++ rest)

/-- The added/changed-keys loop of `handleObjects` (`src/diff.ts`,
lines 186-231), in new-key order. -/
def handleObjectsGo (oldFs : Fields) (basePath : String)
    (options : CreateDiffOptions) (currentDepth : Nat) :
    Fields → JsResult (List Op)
  | .nil => .ok []
  | .cons k nv nrest => do
    let here ←
      match oldFs.get? k with
      | none => .ok [opAdd (concatPath basePath k) nv]
      | some ov =>
        if deepEqual ov nv then .ok []
        else createPatch ov nv (concatPath basePath k) options (currentDepth + 1)
    let rest ← handleObjectsGo oldFs basePath options currentDepth nrest
    .ok (here ++ rest)

end



/-- `path.slice(0, path.lastIndexOf('/'))`: everything before the last
slash; with no slash (`lastIndexOf` is −1) JS drops the last
character. -/
def strDirname (s : String) : String :=
  match (splitSlash s.toList).reverse with
  | [] => String.mk s.toList.dropLast
  | [_] => String.mk s.toList.dropLast
  | _ :: revInit => String.intercalate "/" (revInit.reverse.map String.mk)

/-- `path.slice(path.lastIndexOf('/') + 1)`: the text after the last
slash; with no slash JS returns the whole string. -/
def strLastSeg (s : String) : String :=
  match (splitSlash s.toList).getLast? with
  | some seg => if (splitSlash s.toList).length = 1 then s else String.mk seg
  | none => s

/-! ## Inverse generator (`src/inverse.ts`, the variant at lines 1-270) -/

/-- Raw property access `obj[segment]` as used by the reduce inside
`normalizeArrayPath`: property access on `undefined`/`null` is a host
`TypeError`; arrays expose canonical indices, objects their keys,
other primitives yield `undefined`. -/
def rawAccess (v : Value) (seg : String) : JsResult Value :=
  match v with
  | .undef => .error .jsTypeError
  | .null => .error .jsTypeError
  | .arr xs => .ok ((xs.getStr seg).getD .undef)
  | .obj fs => .ok ((fs.get? seg).getD .undef)
  | _ => .ok Value.undef

/-- The reduce of `normalizeArrayPath`: the first raw segment (the empty
piece before the leading slash) is skipped, the rest are looked up. -/
def nrmReduce (target : Value) : List String → JsResult Value
  | [] => .ok target
  | _first :: rest =>
    rest.foldlM (fun acc seg => rawAccess acc seg) target

/-- `normalizeArrayPath` (`src/inverse.ts`, lines 10-21): when the final
raw segment is `-` and the addressed parent is an array, replace it by
the parent's length. -/
def normalizeArrayPath (target : Value) (path : String) : JsResult String := do
  let segments := (splitSlash path.toList).map String.mk
  match segments.getLast? with
  | some "-" => do
    let parent ← nrmReduce target segments.dropLast
    match parent with
    | .arr xs =>
      .ok (String.intercalate "/" (segments.dropLast ++ [toString xs.length]))
    | _ => .ok path
  | _ => .ok path

/-- `op.count || 1`: a missing, zero or `NaN` count falls back to 1. -/
def countOrOne (c : Option Int) : Int :=
  match c with
  | some k => if k = 0 then 1 else k
  | none => 1

/-- JS `arr.slice(i, i + count)` for a non-negative parsed start index,
with clamping. -/
def jsSlice (l : List Value) (start : Int) (length : Int) : List Value :=
  if start < 0 then []
  else (l.drop start.toNat).take length.toNat

/-- `generateInverseOperation` (`src/inverse.ts`, lines 40-142): the
per-kind inverse, computed against the working state before the forward
operation is applied.  The result list models `null` (no inverse) as
`[]`, a single operation as a singleton and the generated arrays of
individual operations in their array order. -/
def generateInverseOperation (currentState : Value) (operation : Op)
    (batchArrayOps : Bool) : JsResult (List Op) :=
  match operation.op with
  | .add => do
    let normalizedPath ← normalizeArrayPath currentState operation.path
    match operation.value with
    | some (.arr vs) =>
      if batchArrayOps then
        .ok [opRemoveCount normalizedPath (vs.length : Int)]
      else
        .ok (List.replicate vs.length (opRemove normalizedPath))
    | _ => .ok [opRemove normalizedPath]
  | .remove => do
    let normalizedPath ← normalizeArrayPath currentState operation.path
    let pathSegments := (splitSlash normalizedPath.toList).map String.mk
    let parentPath :=
      if 1 < pathSegments.length then
        String.intercalate "/" pathSegments.dropLast
      else ""
    let parent ←
      if parentPath = "" then .ok (some currentState)
      else getValueByPointer currentState parentPath
    match parent with
    | some (.arr xs) =>
      let lastSeg := (pathSegments.getLast?).getD ""
      let count := countOrOne operation.count
      let values :=
        match jsParseInt lastSeg with
        | some index => jsSlice xs.toList index count
        | none => []
      if batchArrayOps ∧ 1 < count then
        .ok [opAdd normalizedPath (vArr values)]
      else if count = 1 then
        .ok [opAdd normalizedPath (values.headD .undef)]
      else
        .ok (values.reverse.map (fun v => opAdd normalizedPath v))
    | _ => do
      let value ← getValueByPointer currentState normalizedPath
      match value with
      | none => throwPE (PatchError.pathNotFound normalizedPath)
      | some v => .ok [opAdd normalizedPath (deepClone v)]
  | .replace => do
    let normalizedPath ← normalizeArrayPath currentState operation.path
    let value ← getValueByPointer currentState normalizedPath
    match value with
    | none => throwPE (PatchError.pathNotFound normalizedPath)
    | some v => .ok [opReplace normalizedPath (deepClone v)]
  | .move =>
    match operation.fromPath with
    | none => throwPE (PatchError.missingField "move")
    | some f =>
      if f = "" then throwPE (PatchError.missingField "move")
      else do
        let fromPath ← normalizeArrayPath currentState f
        let toPath ← normalizeArrayPath currentState operation.path
        .ok [opMove fromPath toPath]
  | .copy => .ok []
  | .test => .ok []

/-- The forward loop of `createInversePatch`: per operation the inverse
is generated from the current working state and prepended
(`unshift`), then the forward operation is applied to the working
state. -/
def cipLoop (batchArrayOps : Bool) :
    Value → List Op → List Op → JsResult (List Op)
  | _, inverse, [] => .ok inverse
  | workingState, inverse, op :: rest => do
    let invOps ← generateInverseOperation workingState op batchArrayOps
    let workingState' ← applyOperation workingState op
    cipLoop batchArrayOps workingState' (invOps ++ inverse) rest

/-- The pairwise merge candidate of the private
`optimizeArrayOperations` in `src/inverse.ts` (lines 193-245): adjacent
adds at one path with array values concatenate; adjacent removes at one
path sum their counts; adjacent adds at consecutive indices of one
array collapse into one array-valued add. -/
def invTryMerge (prev current : Op) : Option Op :=
  if current.op = .add ∧ prev.op = .add ∧ current.path = prev.path ∧
      ((match current.value, prev.value with
        | some (.arr _), some (.arr _) => true
        | _, _ => false) = true) then
    match prev.value, current.value with
    | some (.arr pv), some (.arr cv) =>
      let merged : Value := .arr (Values.ofList (pv.toList ++ cv.toList))
      some { prev with value := some merged }
    | _, _ => none
  else if current.op = .remove ∧ prev.op = .remove ∧ current.path = prev.path then
    some { prev with
      count := some (countOrOne prev.count + countOrOne current.count) }
  else if current.op = .add ∧ prev.op = .add ∧
      strDirname current.path = strDirname prev.path then
    match jsParseInt (strLastSeg current.path), jsParseInt (strLastSeg prev.path) with
    | some ci, some pi =>
      if ci = pi + 1 then
        match prev.value with
        | some (.arr pv) =>
          let merged : Value :=
            .arr (Values.ofList (pv.toList ++ [current.value.getD .undef]))
          some { prev with value := some merged }
        | _ =>
          let merged : Value := vArr [prev.value.getD .undef, current.value.getD .undef]
          some { prev with value := some merged }
      else none
    | _, _ => none
  else none

/-- The splice loop of the private `optimizeArrayOperations`
(`src/inverse.ts`): scanning from the end, each merged pair replaces the
earlier operation, which may then merge again with its own
predecessor. -/
def invMergeAll : List Op → List Op
  | [] => []
  | [x] => [x]
  | x :: rest =>
    match invMergeAll rest with
    | [] => [x]
    | y :: tail =>
      match invTryMerge x y with
      | some m => m :: tail
      | none => x :: y :: tail

/-- `createInversePatch` (`src/inverse.ts`, lines 147-188): replay the
patch on a working copy, prepending per-operation inverses, then run the
merge pass when `batchArrayOps` (on by default). -/
def createInversePatch (originalState : Value) (patch : List Op)
    (batchArrayOps : Bool := true) : JsResult (List Op) := do
  let workingState := deepClone originalState
  let inverse ← cipLoop batchArrayOps workingState [] patch
  if batchArrayOps then .ok (invMergeAll inverse) else .ok inverse


/-! ## Theorems for the claims -/

/-- Claim C1 (code bug): the round trip `applyPatch(clone(A), createPatch(A, B))`
does not yield `B` for `A = {arr: [1,2,3,4]}`, `B = {arr: [1,4,2,3]}` (acyclic,
shallow, well within any depth bound).  `createPatch` with default options
emits the replaces at `/1`, `/2`, `/3` — the `/arr` base path is dropped
because `src/diff.ts` passes the base path positionally where
`diffArraySimple` expects a params object — and `applyPatch` on the clone of
`A` then throws `INVALID_POINTER` at `/1` instead of producing `B`. -/
theorem claim_C1_roundtrip_fails :
    createPatch (vObj [("arr", vArr [.num 1, .num 2, .num 3, .num 4])])
        (vObj [("arr", vArr [.num 1, .num 4, .num 2, .num 3])])
      = .ok [opReplace "/1" (.num 4), opReplace "/2" (.num 2),
             opReplace "/3" (.num 3)] ∧
    (createPatch (vObj [("arr", vArr [.num 1, .num 2, .num 3, .num 4])])
        (vObj [("arr", vArr [.num 1, .num 4, .num 2, .num 3])])).bind
      (fun p => applyPatch
        (deepClone (vObj [("arr", vArr [.num 1, .num 2, .num 3, .num 4])])) p)
      = .error (.patchError (PatchError.invalidPointer "/1")) :=
  ⟨rfl, rfl⟩

/-- Claim C2 (code bug): for `A = {a: 1}` and `P = [{op:'add', path:'/a',
value:2}]` — a patch that applies successfully — the inverse patch is
`[{op:'remove', path:'/a'}]`, and applying it to the patched document yields
`{}`, which does not deep-equal `A`: the add overwrote an existing key, and
the unconditional add-to-remove inverse loses the prior value. -/
theorem claim_C2_inverse_fails :
    applyPatch (deepClone (vObj [("a", .num 1)])) [opAdd "/a" (.num 2)]
      = .ok (vObj [("a", .num 2)]) ∧
    createInversePatch (vObj [("a", .num 1)]) [opAdd "/a" (.num 2)]
      = .ok [opRemove "/a"] ∧
    applyPatch (vObj [("a", .num 2)]) [opRemove "/a"] = .ok (vObj []) ∧
    deepEqual (vObj []) (vObj [("a", .num 1)]) = false :=
  ⟨rfl, rfl, rfl, rfl⟩

/-- Claim C3 (code bug): `applyPatchWithRollback([1], P)` with
`P = [{op:'add', path:'/1', value:2}, {op:'replace', path:'/9', value:0}]`
raises (`INVALID_POINTER` from the failing replace), but the restored
document is `[1, <hole>]`, not the pre-call `[1]`: deleting an array's keys
does not shrink its length, so `Object.assign` of the shorter backup leaves
a trailing hole and the result does not deep-equal the pre-call state. -/
theorem claim_C3_rollback_fails :
    applyPatchWithRollback (vArr [.num 1])
        [opAdd "/1" (.num 2), opReplace "/9" (.num 0)]
      = .error (.patchError (PatchError.invalidPointer "/9"),
                vArr [.num 1, .undef]) ∧
    deepEqual (vArr [.num 1, .undef]) (vArr [.num 1]) = false :=
  ⟨rfl, rfl⟩

/-- Claim C4 (code bug): for `old = [1,2,3,4]` and `new = [4,2,3,1]` (the
spec's own §8 example) the batched output of `generateArrayOperations` is
`[move /0 ← /3, move /1 ← /1, move /2 ← /2, remove /3 (count 1)]`; its
`fromIndex`es refer to positions of the original array, so replaying the
operations in order against `old` yields `[4,1,2]`, not `new`. -/
theorem claim_C4_replay_fails :
    batchArrayOperations (generateArrayOperations
        [Value.num 1, .num 2, .num 3, .num 4]
        [Value.num 4, .num 2, .num 3, .num 1])
      = [opMove "/0" "/3", opMove "/1" "/1", opMove "/2" "/2",
         opRemoveCount "/3" 1] ∧
    applyPatch (vArr [.num 1, .num 2, .num 3, .num 4])
        (batchArrayOperations (generateArrayOperations
          [Value.num 1, .num 2, .num 3, .num 4]
          [Value.num 4, .num 2, .num 3, .num 1]))
      = .ok (vArr [.num 4, .num 1, .num 2]) ∧
    deepEqual (vArr [.num 4, .num 1, .num 2])
        (vArr [.num 4, .num 2, .num 3, .num 1]) = false :=
  ⟨rfl, rfl, rfl⟩

/-- Claim C5 (code bug): the sampled cache key is correctness-bearing.
`{x: 1}` and `{y: 2}` both hash to `o1`, so the pairs `([{x:1}], [{x:1}])`
and `([{y:2}], [{x:1}])` share the cache key `1:1:o1::o1:`; after
`findLCS([{x:1}], [{x:1}])` fills the cache, `findLCS([{y:2}], [{x:1}])`
returns the cached `[0]` even though the two arrays have no deep-equal
elements and the uncached DP computes `[]` — the result depends on what
earlier calls put in the cache. -/
theorem claim_C5_cache_collision :
    getLCSCacheKey [vObj [("y", .num 2)]] [vObj [("x", .num 1)]]
      = getLCSCacheKey [vObj [("x", .num 1)]] [vObj [("x", .num 1)]] ∧
    (findLCS [] [vObj [("x", .num 1)]] [vObj [("x", .num 1)]]).1 = [0] ∧
    (findLCS (findLCS [] [vObj [("x", .num 1)]] [vObj [("x", .num 1)]]).2
        [vObj [("y", .num 2)]] [vObj [("x", .num 1)]]).1 = [0] ∧
    findLCSPure [vObj [("y", .num 2)]] [vObj [("x", .num 1)]] = [] ∧
    deepEqual (vObj [("y", .num 2)]) (vObj [("x", .num 1)]) = false :=
  ⟨rfl, rfl, rfl, rfl, rfl⟩

/-- Claim C6, counterexample: a replace at a non-resolving path fails with
`INVALID_POINTER`, not `PATH_NOT_FOUND` — `handleReplaceOperation` throws
`PatchError.invalidPointer`, and `src/errors.ts` has no `PATH_NOT_FOUND`
member at all (only the extended error module elsewhere in the repository
provides one). -/
theorem claim_C6_counterexample :
    applyOperation (vObj [("a", .num 1)]) (opReplace "/b" (.num 2))
      = .error (.patchError (PatchError.invalidPointer "/b")) ∧
    (PatchError.invalidPointer "/b").code ≠ PatchErrorCode.PATH_NOT_FOUND :=
  ⟨rfl, by decide⟩

/-- Claim C7, counterexample: an add/set index strictly beyond the array
length is accepted, not rejected: `validateArrayIndex([1,2,3], 4, true)`
returns 4 (the source allows indices past the length for sparse arrays when
`allowEnd` is set), and `setValueByPointer([1,2,3], '/4', 9)` succeeds,
appending via the splice clamp — no `ArrayIndexError` as the claim
requires for an index outside `[0, length]`. -/
theorem claim_C7_counterexample :
    validateArrayIndex (Values.ofList [.num 1, .num 2, .num 3]) (.n 4) true
      = .ok 4 ∧
    setValueByPointer (vArr [.num 1, .num 2, .num 3]) "/4" (.num 9)
      = .ok (vArr [.num 1, .num 2, .num 3, .num 9]) :=
  ⟨rfl, rfl⟩

/-- Claim C7 as amended: for numeric indices, `validateArrayIndex` rejects
negative (and `NaN`/non-integer) indices with `ARRAY_INDEX_ERROR`; with
`allowEnd` (the append/set mode) it accepts every non-negative integer,
including indices beyond the length; without it (existing-element mode) the
index must lie in `[0, length)` and anything at or past the length is an
`ARRAY_INDEX_ERROR`; the token `-` maps to `length` in append/set mode and
to `length - 1` otherwise. -/
theorem claim_C7_amended (arr : Values) (k : Int) (allowEnd : Bool) :
    (k < 0 →
      validateArrayIndex arr (.n k) allowEnd
        = .error (.patchError { code := .ARRAY_INDEX_ERROR })) ∧
    (0 ≤ k → allowEnd = true → validateArrayIndex arr (.n k) allowEnd = .ok k) ∧
    (0 ≤ k → k < (arr.length : Int) →
      validateArrayIndex arr (.n k) allowEnd = .ok k) ∧
    (allowEnd = false → (arr.length : Int) ≤ k → 0 ≤ k →
      validateArrayIndex arr (.n k) allowEnd
        = .error (.patchError { code := .ARRAY_INDEX_ERROR })) ∧
    validateArrayIndex arr (.s "-") allowEnd
      = .ok (if allowEnd then (arr.length : Int) else (arr.length : Int) - 1) := by
  refine ⟨?_, ?_, ?_, ?_, ?_⟩
  · intro hk
    simp [validateArrayIndex, validateArrayIndexNum, throwPE, hk]
  · intro hk ha
    subst ha
    simp [validateArrayIndex, validateArrayIndexNum, not_lt.mpr hk]
  · intro hk hlt
    simp [validateArrayIndex, validateArrayIndexNum, not_lt.mpr hk]
    intro h
    omega
  · intro ha hle hk
    subst ha
    simp [validateArrayIndex, validateArrayIndexNum, throwPE, not_lt.mpr hk, hle]
  · simp [validateArrayIndex]

/-- Witness for the amended C7 at concrete inputs: index 5 on a 3-element
array is accepted in append/set mode and rejected in existing-element
mode. -/
theorem claim_C7_witness :
    validateArrayIndex (Values.ofList [.num 1, .num 2, .num 3]) (.n 5) true
      = .ok 5 ∧
    validateArrayIndex (Values.ofList [.num 1, .num 2, .num 3]) (.n 5) false
      = .error (.patchError { code := .ARRAY_INDEX_ERROR }) :=
  ⟨(claim_C7_amended (Values.ofList [.num 1, .num 2, .num 3]) 5 true).2.1
      (by decide) rfl,
   (claim_C7_amended (Values.ofList [.num 1, .num 2, .num 3]) 5 false).2.2.2.1
      rfl (by decide) (by decide)⟩


/-- Scanning `~1` leaves a non-tilde head char in place. -/
theorem r1_nontilde (c : Char) (rest : List Char) (hc : c ≠ '~') :
    replaceTilde1 (c :: rest) = c :: replaceTilde1 rest := by
  rw [replaceTilde1.eq_def]
  simp [hc]

/-- Scanning step at a tilde for the `~1` pass. -/
theorem r1_tilde (c2 : Char) (rest : List Char) :
    replaceTilde1 ('~' :: c2 :: rest)
      = if c2 = '1' then '/' :: replaceTilde1 rest
        else '~' :: replaceTilde1 (c2 :: rest) := by
  rw [replaceTilde1]
  simp

/-- Scanning `~0` leaves a non-tilde head char in place. -/
theorem r0_nontilde (c : Char) (rest : List Char) (hc : c ≠ '~') :
    replaceTilde0 (c :: rest) = c :: replaceTilde0 rest := by
  rw [replaceTilde0.eq_def]
  simp [hc]

/-- Scanning step at a tilde for the `~0` pass. -/
theorem r0_tilde (c2 : Char) (rest : List Char) :
    replaceTilde0 ('~' :: c2 :: rest)
      = if c2 = '0' then '~' :: replaceTilde0 rest
        else '~' :: replaceTilde0 (c2 :: rest) := by
  rw [replaceTilde0]
  simp

/-- Character-level pointer-segment round trip: unescaping (first `~1`
to `/`, then `~0` to `~`) undoes escaping. -/
theorem unescape_escape_chars (cs : List Char) :
    replaceTilde0 (replaceTilde1 (escapeChars cs)) = cs := by
  induction cs with
  | nil => rfl
  | cons c rest ih =>
    by_cases hc : c = '~'
    · subst hc
      rw [show escapeChars ('~' :: rest) = '~' :: '0' :: escapeChars rest from rfl]
      rw [r1_tilde]
      rw [if_neg (by decide)]
      rw [r1_nontilde '0' _ (by decide)]
      rw [r0_tilde]
      rw [if_pos rfl]
      rw [ih]
    · by_cases hs : c = '/'
      · subst hs
        rw [show escapeChars ('/' :: rest) = '~' :: '1' :: escapeChars rest by
          rw [escapeChars]; simp [hc]]
        rw [r1_tilde, if_pos rfl]
        rw [r0_nontilde '/' _ (by decide), ih]
      · rw [show escapeChars (c :: rest) = c :: escapeChars rest by
          rw [escapeChars]; simp [hc, hs]]
        rw [r1_nontilde c _ hc, r0_nontilde c _ hc, ih]

/-- Claim C8 (confirmed): for every pointer segment string `s`,
`unescapePointerSegment(escapePointerSegment(s)) = s`. -/
theorem claim_C8_segment_roundtrip (s : String) :
    unescapePointerSegment (escapePointerSegment s) = s := by
  show String.mk (replaceTilde0 (replaceTilde1
    (String.toList (String.mk (escapeChars s.toList))))) = s
  rw [show String.toList (String.mk (escapeChars s.toList))
        = escapeChars s.toList from rfl,
      unescape_escape_chars]
  cases s
  rfl

/-- A `remove`/`replace` that passes `validateOperation` has a non-empty
path (an empty path is a missing required field for those kinds). -/
theorem validateOp_rr_path_ne (op : Op)
    (h : op.op = .remove ∨ op.op = .replace)
    (hok : validateOperation op = .ok ()) : op.path ≠ "" := by
  intro hpath
  cases h with
  | inl h => simp [validateOperation, hpath, h, throwPE] at hok
  | inr h => simp [validateOperation, hpath, h, throwPE] at hok

/-- If some later `remove`/`replace` in the list carries a path already in
`seenPaths`, the validation loop rejects with `INVALID_OPERATION`
(provided every operation is individually well-formed). -/
theorem vploop_hit (ops : List Op) (seen : List String)
    (hall : ∀ op ∈ ops, validateOperation op = .ok ())
    (hex : ∃ l1 o l2, ops = l1 ++ o :: l2 ∧
      (o.op = .remove ∨ o.op = .replace) ∧ o.path ∈ seen) :
    validatePatchLoop seen ops
      = .error (.patchError { code := .INVALID_OPERATION }) := by
  induction ops generalizing seen with
  | nil =>
    obtain ⟨l1, o, l2, heq, _, _⟩ := hex
    cases l1 <;> simp at heq
  | cons op rest ih =>
    have hop : validateOperation op = .ok () := hall op (List.mem_cons_self _ _)
    obtain ⟨l1, o, l2, heq, ho, hseen⟩ := hex
    cases l1 with
    | nil =>
      simp at heq
      obtain ⟨h1, h2⟩ := heq
      subst h1
      subst h2
      have hne : op.path ≠ "" := validateOp_rr_path_ne op ho hop
      simp [validatePatchLoop, hop, hne, ho, hseen]
    | cons x l1' =>
      simp at heq
      obtain ⟨h1, h2⟩ := heq
      subst h1
      subst h2
      have hrest : ∀ q ∈ l1' ++ o :: l2, validateOperation q = .ok () :=
        fun q hq => hall q (List.mem_cons_of_mem _ hq)
      by_cases hcond : op.path ≠ "" ∧ (op.op = .remove ∨ op.op = .replace)
      · by_cases hsn : op.path ∈ seen
        · simp [validatePatchLoop, hop, hcond.1, hcond.2, hsn]
        · have := ih (op.path :: seen) hrest
            ⟨l1', o, l2, rfl, ho, List.mem_cons_of_mem _ hseen⟩
          simp [validatePatchLoop, hop, hcond.1, hcond.2, hsn, this]
      · have := ih seen hrest ⟨l1', o, l2, rfl, ho, hseen⟩
        simp only [validatePatchLoop, hop]
        rw [if_neg hcond]
        exact this

/-- Claim C10 (confirmed): `validatePatch` — run by default before
`applyPatch` — rejects any patch containing two `remove`/`replace`
operations with the same path anywhere in the sequence, raising
`INVALID_OPERATION`, provided each operation is individually well-formed
(such a patch can still be a perfectly valid RFC 6902 patch, e.g. two
successive removes at one array index). -/
theorem claim_C10_duplicate_paths_rejected
    (l1 : List Op) (o1 : Op) (l2 : List Op) (o2 : Op) (l3 : List Op)
    (hall : ∀ op ∈ l1 ++ o1 :: l2 ++ o2 :: l3, validateOperation op = .ok ())
    (h1 : o1.op = .remove ∨ o1.op = .replace)
    (h2 : o2.op = .remove ∨ o2.op = .replace)
    (hp : o1.path = o2.path) :
    validatePatch (l1 ++ o1 :: l2 ++ o2 :: l3)
      = .error (.patchError { code := .INVALID_OPERATION }) := by
  unfold validatePatch
  have core : ∀ (seen : List String),
      validatePatchLoop seen (l1 ++ o1 :: l2 ++ o2 :: l3)
        = .error (.patchError { code := .INVALID_OPERATION }) := by
    induction l1 with
    | nil =>
      intro seen
      have hop : validateOperation o1 = .ok () := hall o1 (by simp)
      have hne : o1.path ≠ "" := validateOp_rr_path_ne o1 h1 hop
      have htail : ∀ q ∈ l2 ++ o2 :: l3, validateOperation q = .ok () := by
        intro q hq
        exact hall q (by simp [hq])
      by_cases hsn : o1.path ∈ seen
      · simp [validatePatchLoop, hop, hne, h1, hsn]
      · have hit := vploop_hit (l2 ++ o2 :: l3) (o1.path :: seen) htail
          ⟨l2, o2, l3, rfl, h2, by simp [hp]⟩
        simp [validatePatchLoop, hop, hne, h1, hsn, hit]
    | cons x l1' ih =>
      intro seen
      have hall' : ∀ op ∈ l1' ++ o1 :: l2 ++ o2 :: l3,
          validateOperation op = .ok () := by
        intro q hq
        exact hall q (List.mem_cons_of_mem _ hq)
      have hx : validateOperation x = .ok () := hall x (by simp)
      have ih' := ih hall'
      by_cases hcond : x.path ≠ "" ∧ (x.op = .remove ∨ x.op = .replace)
      · by_cases hsn : x.path ∈ seen
        · simp [validatePatchLoop, hx, hcond.1, hcond.2, hsn]
        · simp only [List.cons_append, validatePatchLoop, hx]
          rw [if_pos hcond, if_neg hsn]
          exact ih' (x.path :: seen)
      · simp only [List.cons_append, validatePatchLoop, hx]
        rw [if_neg hcond]
        exact ih' seen
  exact core []

/-- Witness for C10: two successive removes at one array index — a valid
RFC 6902 patch — are rejected with `INVALID_OPERATION`. -/
theorem claim_C10_witness :
    validatePatch [opRemove "/a/0", opRemove "/a/0"]
      = .error (.patchError { code := .INVALID_OPERATION }) :=
  claim_C10_duplicate_paths_rejected [] (opRemove "/a/0") [] (opRemove "/a/0") []
    (by
      intro op hop
      simp at hop
      subst hop
      rfl)
    (Or.inl rfl) (Or.inl rfl) rfl

/-- Unfolding: the escape scan on a single character. -/
theorem scanBad_single (c : Char) :
    tildeScanBad [c] = if c = '~' then true else false := by
  by_cases hc : c = '~'
  · subst hc
    rw [if_pos rfl]
    rfl
  · rw [if_neg hc]
    rw [tildeScanBad.eq_def]
    simp [hc, tildeScanBad]

/-- Unfolding: the escape scan on two or more characters. -/
theorem scanBad_cons_cons (c c2 : Char) (r2 : List Char) :
    tildeScanBad (c :: c2 :: r2)
      = if c = '~' then
          (if c2 = '0' ∨ c2 = '1' then tildeScanBad r2 else true)
        else tildeScanBad (c2 :: r2) := by
  by_cases hc : c = '~'
  · subst hc
    rw [if_pos rfl]
    rfl
  · rw [if_neg hc]
    rw [tildeScanBad.eq_def]
    simp [hc]

/-- A bad tilde at some index is caught by the escape scan. -/
theorem badAt_scan (cs : List Char)
    (h : ∃ i, cs.get? i = some '~' ∧
      ∀ ch, cs.get? (i + 1) = some ch → ch ≠ '0' ∧ ch ≠ '1') :
    tildeScanBad cs = true := by
  induction cs with
  | nil =>
    obtain ⟨i, h1, _⟩ := h
    exact Option.noConfusion h1
  | cons c rest ih =>
    obtain ⟨i, h1, h2⟩ := h
    cases i with
    | zero =>
      have hc : c = '~' := Option.some.inj h1
      subst hc
      cases rest with
      | nil => rfl
      | cons c2 r2 =>
        have hc2 := h2 c2 rfl
        rw [scanBad_cons_cons, if_pos rfl,
          if_neg (fun h'' => h''.elim hc2.1 hc2.2)]
    | succ i' =>
      have h1' : rest.get? i' = some '~' := h1
      have hbad : ∃ j, rest.get? j = some '~' ∧
          ∀ ch, rest.get? (j + 1) = some ch → ch ≠ '0' ∧ ch ≠ '1' :=
        ⟨i', h1', fun ch hch => h2 ch hch⟩
      have hrest := ih hbad
      by_cases hc : c = '~'
      · subst hc
        cases rest with
        | nil => exact Option.noConfusion h1'
        | cons c2 r2 =>
          rw [scanBad_cons_cons, if_pos rfl]
          by_cases h01 : c2 = '0' ∨ c2 = '1'
          · rw [if_pos h01]
            have hne : c2 ≠ '~' := by
              rcases h01 with h' | h' <;> (subst h'; decide)
            cases r2 with
            | nil =>
              rw [scanBad_single, if_neg hne] at hrest
              exact absurd hrest (by decide)
            | cons c3 r3 =>
              rw [scanBad_cons_cons, if_neg hne] at hrest
              exact hrest
          · rw [if_neg h01]
      · cases rest with
        | nil => exact Option.noConfusion h1'
        | cons c2 r2 =>
          rw [scanBad_cons_cons, if_neg hc]
          exact hrest

/-- `splitSlash` never produces the empty list of pieces. -/
theorem splitSlash_ne_nil (cs : List Char) : splitSlash cs ≠ [] := by
  cases cs with
  | nil => simp [splitSlash]
  | cons c rest =>
    rw [splitSlash.eq_def]
    by_cases hc : c = '/'
    · simp [hc]
    · simp only [hc, if_false]
      cases h : splitSlash rest <;> simp

/-- Splitting at slashes: a non-slash head char joins the first piece. -/
theorem splitSlash_head (c : Char) (rest : List Char) (hc : c ≠ '/') :
    ∃ s ss, splitSlash rest = s :: ss ∧ splitSlash (c :: rest) = (c :: s) :: ss := by
  cases hs : splitSlash rest with
  | nil => exact absurd hs (splitSlash_ne_nil rest)
  | cons s ss =>
    refine ⟨s, ss, rfl, ?_⟩
    rw [splitSlash.eq_def]
    simp only [hc, if_false, hs]

/-- A bad tilde in the pointer body lands, with its following context, in
one of the slash-separated pieces. -/
theorem split_bad (cs : List Char)
    (h : ∃ i, cs.get? i = some '~' ∧
      ∀ ch, cs.get? (i + 1) = some ch → ch ≠ '0' ∧ ch ≠ '1') :
    ∃ seg ∈ splitSlash cs, ∃ j, seg.get? j = some '~' ∧
      ∀ ch, seg.get? (j + 1) = some ch → ch ≠ '0' ∧ ch ≠ '1' := by
  induction cs with
  | nil =>
    obtain ⟨i, h1, _⟩ := h
    exact Option.noConfusion h1
  | cons c rest ih =>
    obtain ⟨i, h1, h2⟩ := h
    cases i with
    | zero =>
      have hc : c = '~' := Option.some.inj h1
      subst hc
      obtain ⟨s, ss, hrest, hcons⟩ := splitSlash_head '~' rest (by decide)
      refine ⟨'~' :: s, by rw [hcons]; exact List.mem_cons_self _ _, 0, rfl, ?_⟩
      intro ch hch
      have hch' : s.get? 0 = some ch := hch
      apply h2 ch
      show rest.get? 0 = some ch
      cases rest with
      | nil =>
        rw [show splitSlash ([] : List Char) = [[]] from rfl] at hrest
        cases hrest
        exact Option.noConfusion hch'
      | cons r0 r' =>
        by_cases hr0 : r0 = '/'
        · subst hr0
          rw [show splitSlash ('/' :: r') = [] :: splitSlash r' from rfl] at hrest
          have : s = [] := (List.cons.injEq _ _ _ _ ▸ hrest).1.symm ▸ rfl
          rw [List.cons.injEq] at hrest
          rw [← hrest.1] at hch'
          exact Option.noConfusion hch'
        · obtain ⟨s2, ss2, hrest2, hcons2⟩ := splitSlash_head r0 r' hr0
          rw [hcons2] at hrest
          rw [List.cons.injEq] at hrest
          rw [← hrest.1] at hch'
          exact hch'
    | succ i' =>
      have h1' : rest.get? i' = some '~' := h1
      have hbad : ∃ j, rest.get? j = some '~' ∧
          ∀ ch, rest.get? (j + 1) = some ch → ch ≠ '0' ∧ ch ≠ '1' :=
        ⟨i', h1', fun ch hch => h2 ch hch⟩
      obtain ⟨seg', hmem', j, hj1, hj2⟩ := ih hbad
      by_cases hc : c = '/'
      · subst hc
        refine ⟨seg', ?_, j, hj1, hj2⟩
        rw [show splitSlash ('/' :: rest) = [] :: splitSlash rest from rfl]
        exact List.mem_cons_of_mem _ hmem'
      · obtain ⟨s, ss, hrest, hcons⟩ := splitSlash_head c rest hc
        rw [hrest] at hmem'
        rcases List.mem_cons.mp hmem' with hhead | htail
        · subst hhead
          refine ⟨c :: seg', by rw [hcons]; exact List.mem_cons_self _ _,
            j + 1, hj1, fun ch hch => hj2 ch hch⟩
        · exact ⟨seg', by rw [hcons]; exact List.mem_cons_of_mem _ htail,
            j, hj1, hj2⟩

/-- A scan hit makes the `src/validate.ts` segment check fail with the
`invalidPointerFormat` error. -/
theorem vseg_bad (seg : List Char) (h : tildeScanBad seg = true) :
    vSegmentCheck seg = .error (.patchError PatchError.invalidPointerFormat) := by
  simp [vSegmentCheck, h, throwPE]

/-- The segment check either passes or fails with `invalidPointerFormat`. -/
theorem vseg_values (seg : List Char) :
    vSegmentCheck seg = .ok () ∨
      vSegmentCheck seg = .error (.patchError PatchError.invalidPointerFormat) := by
  unfold vSegmentCheck
  split
  · exact Or.inr rfl
  · dsimp only
    split
    · exact Or.inr rfl
    · split
      · exact Or.inr rfl
      · exact Or.inl rfl

/-- An `Except` fold over segment checks stays in its error state. -/
theorem vfold_stable (l : List (List Char)) (e : Thrown) :
    l.foldl (fun acc seg => acc >>= fun _ => vSegmentCheck seg)
      (Except.error e) = .error e := by
  induction l with
  | nil => rfl
  | cons s l' ih => exact ih

/-- If some piece fails the scan, the `src/validate.ts` segment fold
errors with `invalidPointerFormat`. -/
theorem vfold_error (l : List (List Char))
    (hex : ∃ seg ∈ l, tildeScanBad seg = true) :
    l.foldl (fun acc seg => acc >>= fun _ => vSegmentCheck seg) (.ok ())
      = .error (.patchError PatchError.invalidPointerFormat) := by
  induction l with
  | nil =>
    obtain ⟨seg, hmem, _⟩ := hex
    simp at hmem
  | cons s l' ih =>
    obtain ⟨seg, hmem, hscan⟩ := hex
    have hstep : (s :: l').foldl
        (fun acc seg => acc >>= fun _ => vSegmentCheck seg) (.ok ())
        = l'.foldl (fun acc seg => acc >>= fun _ => vSegmentCheck seg)
          (vSegmentCheck s) := rfl
    rcases List.mem_cons.mp hmem with hhead | htail
    · have hscan_s : tildeScanBad s = true := hhead ▸ hscan
      rw [hstep, vseg_bad s hscan_s]
      exact vfold_stable l' _
    · rcases vseg_values s with hok | herr
      · rw [hstep, hok]
        exact ih ⟨seg, htail, hscan⟩
      · rw [hstep, herr]
        exact vfold_stable l' _

/-- A pointer accepted by the leading-slash check begins with `/`. -/
theorem startsWith_slash_head (p : String) (hs : strStartsWith p "/" = true) :
    ∃ tl, p.toList = '/' :: tl := by
  unfold strStartsWith at hs
  cases hp : p.toList with
  | nil =>
    rw [hp] at hs
    simp at hs
  | cons c tl =>
    rw [hp] at hs
    simp at hs
    subst hs
    exact ⟨tl, rfl⟩

/-- Claim C9 (confirmed): any pointer containing a `'~'` not immediately
followed by `'0'` or `'1'` is rejected with an `INVALID_POINTER` error by
both pointer validators (the one in `src/utils.ts` and the one in
`src/validate.ts` used by the patch executor, whose
`invalidPointerFormat` helper carries `INVALID_POINTER`). -/
theorem claim_C9_bad_escape_rejected (p : String) (h : hasBadTilde p) :
    validateJsonPointerV p
      = .error (.patchError { code := .INVALID_POINTER }) ∧
    validateJsonPointerU p
      = .error (.patchError { code := .INVALID_POINTER }) := by
  obtain ⟨i, h1, h2⟩ := h
  have hne : p ≠ "" := by
    intro he
    subst he
    exact Option.noConfusion h1
  by_cases hs : strStartsWith p "/" = true
  · obtain ⟨tl, htl⟩ := startsWith_slash_head p hs
    obtain ⟨i', rfl⟩ : ∃ i', i = i' + 1 := by
      cases i with
      | zero =>
        rw [htl] at h1
        exact absurd (Option.some.inj h1) (by decide)
      | succ n => exact ⟨n, rfl⟩
    have hbadtl : ∃ j, tl.get? j = some '~' ∧
        ∀ ch, tl.get? (j + 1) = some ch → ch ≠ '0' ∧ ch ≠ '1' := by
      refine ⟨i', ?_, ?_⟩
      · have := h1
        rw [htl] at this
        exact this
      · intro ch hch
        apply h2 ch
        rw [htl]
        exact hch
    obtain ⟨seg, hmem, jbad⟩ := split_bad tl hbadtl
    have hscan : tildeScanBad seg = true := badAt_scan seg jbad
    have hsegs : (splitSlash p.toList).tailD [] = splitSlash tl := by
      rw [htl]
      rfl
    have hpr : p ≠ "/" := by
      intro he
      subst he
      have : tl = [] := by
        have h' : ['/'] = '/' :: tl := htl
        exact (List.cons.inj h').2.symm
      subst this
      have : seg = [] := by
        rw [show splitSlash ([] : List Char) = [[]] from rfl] at hmem
        simpa using hmem
      subst this
      exact Bool.noConfusion hscan
    constructor
    · unfold validateJsonPointerV
      rw [if_neg hne, if_neg (by simp [hs]), if_neg hpr]
      rw [hsegs]
      exact vfold_error (splitSlash tl) ⟨seg, hmem, hscan⟩
    · unfold validateJsonPointerU
      rw [if_neg (by simp [hs])]
      have hcontains : seg.contains '~' = true := by
        have hmem2 : '~' ∈ seg := by
          obtain ⟨j, hj, _⟩ := jbad
          exact List.get?_mem hj
        exact List.elem_eq_true_of_mem hmem2
      have hany : ((splitSlash p.toList).tailD []).any
          (fun seg => seg.contains '~' && tildeScanBad seg) = true := by
        rw [hsegs, List.any_eq_true]
        exact ⟨seg, hmem, by rw [hcontains, hscan]; rfl⟩
      rw [if_pos hany]
      rfl
  · constructor
    · unfold validateJsonPointerV
      rw [if_neg hne, if_pos (by simp [hs])]
      rfl
    · unfold validateJsonPointerU
      rw [if_pos ⟨hne, by simp [hs]⟩]
      rfl

/-- Witness for C9 at the spec's example: `validateJsonPointer("/a/~2")`
fails with `INVALID_POINTER` under both validators. -/
theorem claim_C9_witness :
    validateJsonPointerV "/a/~2"
      = .error (.patchError { code := .INVALID_POINTER }) ∧
    validateJsonPointerU "/a/~2"
      = .error (.patchError { code := .INVALID_POINTER }) :=
  claim_C9_bad_escape_rejected "/a/~2"
    ⟨3, by decide, fun c hc => by
      have h2 : '2' = c := Option.some.inj hc
      rw [← h2]
      decide⟩


/-- An index that resolves is in range. -/
theorem Values.get?_some_lt : ∀ (xs : Values) (n : Nat) (v : Value),
    xs.get? n = some v → n < xs.length
  | .nil, _, _, h => Option.noConfusion h
  | .cons _ _, 0, _, _ => by simp only [Values.length]; omega
  | .cons _ rest, n + 1, v, h => by
    have := Values.get?_some_lt rest n v h
    simp only [Values.length]
    omega

/-- `setAt` preserves the length. -/
theorem Values.setAt_length : ∀ (xs : Values) (n : Nat) (x : Value),
    (xs.setAt n x).length = xs.length
  | .nil, _, _ => rfl
  | .cons _ _, 0, _ => rfl
  | .cons y rest, n + 1, x => by
    simp only [Values.setAt, Values.length]
    rw [Values.setAt_length rest n x]

/-- Reading back a `setAt` index. -/
theorem Values.setAt_get?_self : ∀ (xs : Values) (n : Nat) (x : Value),
    n < xs.length → (xs.setAt n x).get? n = some x
  | .nil, n, x, h => by simp [Values.length] at h
  | .cons _ _, 0, _, _ => rfl
  | .cons y rest, n + 1, x, h => by
    have hm : n < rest.length := by
      simp only [Values.length] at h
      omega
    exact Values.setAt_get?_self rest n x hm

/-- `removeAt` at an in-range index shortens by one. -/
theorem Values.removeAt_length : ∀ (xs : Values) (n : Nat),
    n < xs.length → (xs.removeAt n).length + 1 = xs.length
  | .nil, n, h => by simp [Values.length] at h
  | .cons _ rest, 0, _ => by
    simp only [Values.removeAt, Values.length]
    omega
  | .cons y rest, n + 1, h => by
    have hm : n < rest.length := by
      simp only [Values.length] at h
      omega
    have := Values.removeAt_length rest n hm
    simp only [Values.removeAt, Values.length]
    omega

/-- Reading back an `insertAt` index that is at most the length. -/
theorem Values.insertAt_get?_self : ∀ (xs : Values) (n : Nat) (v : Value),
    n ≤ xs.length → (xs.insertAt n v).get? n = some v
  | .nil, 0, _, _ => rfl
  | .cons _ _, 0, _, _ => rfl
  | .nil, n + 1, v, h => by simp [Values.length] at h
  | .cons y rest, n + 1, v, h => by
    have hm : n ≤ rest.length := by
      simp only [Values.length] at h
      omega
    exact Values.insertAt_get?_self rest n v hm

/-- Reading back a `Fields.set` key. -/
theorem Fields.set_get?_self : ∀ (fs : Fields) (k : String) (v : Value),
    (fs.set k v).get? k = some v
  | .nil, k, v => by simp [Fields.set, Fields.get?]
  | .cons k' v' rest, k, v => by
    by_cases hk : k' = k
    · simp [Fields.set, Fields.get?, hk]
    · simp [Fields.set, Fields.get?, hk, Fields.set_get?_self rest k v]

/-- A canonical array index string parses with JS `parseInt` to the same
value. -/
theorem canonical_parseInt {s : String} {n : Nat}
    (h : canonicalIndex? s = some n) : jsParseInt s = some (n : Int) := by
  unfold canonicalIndex? at h
  unfold jsParseInt
  split
  · -- leading minus sign: no canonical index starts with a minus
    rename_i rest heq
    rw [heq] at h
    have h' : (if (('-' :: rest).all Char.isDigit ∧
        (('-' :: rest).head? = some '0' → '-' :: rest = ['0'])) then
        (takeDigits ('-' :: rest) none).1 else none) = some n := h
    have hfalse : ¬ (('-' :: rest).all Char.isDigit ∧
        (('-' :: rest).head? = some '0' → '-' :: rest = ['0'])) := by
      intro hc
      have hall := hc.1
      simp [List.all_cons] at hall
    rw [if_neg hfalse] at h'
    exact Option.noConfusion h'
  · -- no leading minus
    cases hs : s.toList with
    | nil =>
      rw [hs] at h
      exact Option.noConfusion h
    | cons c cs =>
      rw [hs] at h
      have h' : (if ((c :: cs).all Char.isDigit ∧
          ((c :: cs).head? = some '0' → c :: cs = ['0'])) then
          (takeDigits (c :: cs) none).1 else none) = some n := h
      by_cases hcond : ((c :: cs).all Char.isDigit ∧
          ((c :: cs).head? = some '0' → c :: cs = ['0']))
      · rw [if_pos hcond] at h'
        rw [h']
      · rw [if_neg hcond] at h'
        exact Option.noConfusion h'

/-- A non-`undefined` value resolves against the empty segment list. -/
theorem getWalk_nil_ne_undef {v : Value} (h : v ≠ .undef) :
    getWalk v [] = some v := by
  cases v <;> first | rfl | exact absurd rfl h

/-- A resolved value is never `undefined`. -/
theorem getWalk_some_ne_undef {doc w : Value} {segs : List String}
    (h : getWalk doc segs = some w) : w ≠ .undef := by
  induction segs generalizing doc with
  | nil =>
    cases doc <;> simp [getWalk] at h <;>
      (subst h; intro hc; exact Value.noConfusion hc)
  | cons seg rest ih =>
    cases doc with
    | arr xs =>
      simp only [getWalk] at h
      by_cases hdash : seg = "-"
      · rw [if_pos hdash] at h
        exact Option.noConfusion h
      · rw [if_neg hdash] at h
        exact ih h
    | obj fs =>
      simp only [getWalk] at h
      exact ih h
    | null => exact Option.noConfusion h
    | undef => exact Option.noConfusion h
    | bool b => exact Option.noConfusion h
    | num k => exact Option.noConfusion h
    | str s => exact Option.noConfusion h

/-- A non-empty pointer accepted by the `src/validate.ts` validator
starts with `/`. -/
theorem vOk_startsWith {p : String} (hne : p ≠ "")
    (h : validateJsonPointerV p = .ok ()) : strStartsWith p "/" = true := by
  unfold validateJsonPointerV at h
  rw [if_neg hne] at h
  by_cases hs : strStartsWith p "/" = true
  · exact hs
  · rw [if_pos hs] at h
    exact absurd h (by simp [throwPE])

/-- A pointer accepted by the `src/validate.ts` validator is also
accepted by the `src/utils.ts` validator. -/
theorem vOk_impl_uOk {p : String} (h : validateJsonPointerV p = .ok ()) :
    validateJsonPointerU p = .ok () := by
  by_cases h0 : p = ""
  · subst h0
    rfl
  by_cases h1 : p = "/"
  · subst h1
    rfl
  have hsw := vOk_startsWith h0 h
  have hsegs : ∀ seg ∈ (splitSlash p.toList).tailD [],
      tildeScanBad seg = false := by
    intro seg hmem
    by_contra hbad
    rw [Bool.not_eq_false] at hbad
    have hfold := vfold_error ((splitSlash p.toList).tailD []) ⟨seg, hmem, hbad⟩
    unfold validateJsonPointerV at h
    rw [if_neg h0, if_neg (not_not_intro hsw), if_neg h1, hfold] at h
    exact Except.noConfusion h
  unfold validateJsonPointerU
  rw [if_neg (fun hc => hc.2 hsw)]
  have hany : ¬ (((splitSlash p.toList).tailD []).any
      (fun seg => seg.contains '~' && tildeScanBad seg) = true) := by
    intro hc
    obtain ⟨seg, hmem, hfs⟩ := List.any_eq_true.mp hc
    rw [Bool.and_eq_true] at hfs
    rw [hsegs seg hmem] at hfs
    exact Bool.noConfusion hfs.2
  rw [if_neg hany]

/-- Parsing a non-empty slash-prefixed pointer: the raw pieces after the
leading slash, unescaped; there is at least one segment. -/
theorem parsePointer_slash (p : String) (hne : p ≠ "")
    (hsw : strStartsWith p "/" = true) :
    parsePointer p = .ok (((splitSlash p.toList).tailD []).map
      (fun cs => unescapePointerSegment (String.mk cs))) ∧
    ((splitSlash p.toList).tailD []).map
      (fun cs => unescapePointerSegment (String.mk cs)) ≠ [] := by
  constructor
  · unfold parsePointer
    rw [if_neg hne, if_neg (not_not_intro hsw)]
  · obtain ⟨tl, htl⟩ := startsWith_slash_head p hsw
    rw [htl]
    have hsplit : splitSlash ('/' :: tl) = [] :: splitSlash tl := by
      rw [splitSlash.eq_def]
      simp
    rw [hsplit]
    simp only [List.tailD]
    intro hc
    rw [List.map_eq_nil_iff] at hc
    exact splitSlash_ne_nil tl hc

/-- Bind on a successful `Except` computation. -/
theorem jsbind_ok {A B : Type} (a : A) (f : A → JsResult B) :
    (Except.ok a >>= f) = f a := rfl

/-- With `allowEnd` every non-negative integer index validates. -/
theorem vai_allowEnd (xs : Values) (n : Nat) :
    validateArrayIndex xs (.n (n : Int)) true = .ok (n : Int) := by
  unfold validateArrayIndex validateArrayIndexNum
  dsimp only
  rw [if_neg (by omega), if_neg (by simp)]

/-- An index holding a non-`undefined` element is an own property. -/
theorem hasIdx_of_get? {xs : Values} {n : Nat} {child : Value}
    (hchild : xs.get? n = some child) (hne : child ≠ .undef) :
    xs.hasIdx n = true := by
  unfold Values.hasIdx
  rw [hchild]
  cases child <;> first | rfl | exact absurd rfl hne

/-- Array step of the read walk for a non-`'-'` segment. -/
theorem getWalk_arr_cons (xs : Values) (seg : String) (rest : List String)
    (hdash : ¬ seg = "-") :
    getWalk (.arr xs) (seg :: rest) = getWalk ((xs.getStr seg).getD .undef) rest := by
  simp only [getWalk, if_neg hdash]

/-- Object step of the read walk. -/
theorem getWalk_obj_cons (fs : Fields) (seg : String) (rest : List String) :
    getWalk (.obj fs) (seg :: rest) = getWalk ((fs.get? seg).getD .undef) rest := rfl

/-- A single-segment removal is the leaf removal. -/
theorem removeWalk_single (current : Value) (seg : String) :
    removeWalk current [seg] = removeLeaf current seg := by
  simp only [removeWalk]
  rw [if_pos trivial]

/-- Leaf removal on an array at a canonical in-range index. -/
theorem removeLeaf_arr_ok (xs : Values) (seg : String) (n : Nat)
    (hdash : ¬ seg = "-") (hparse : jsParseInt seg = some (n : Int))
    (hlt : n < xs.length) :
    removeLeaf (.arr xs) seg = .ok (xs.get? n, .arr (xs.removeAt n)) := by
  have hguard : ¬ ((n : Int) < 0 ∨ (xs.length : Int) ≤ (n : Int)) := by omega
  simp only [removeLeaf, if_neg hdash, hparse, if_neg hguard, Int.toNat_natCast]

/-- Leaf removal on an object with a present key. -/
theorem removeLeaf_obj_ok (fs : Fields) (seg : String) (w : Value)
    (hf : fs.get? seg = some w) :
    removeLeaf (.obj fs) seg = .ok (some w, .obj (fs.remove seg)) := by
  simp only [removeLeaf, hf]

/-- Leaf insertion on an array at a canonical index. -/
theorem setLeaf_arr_ok (xs : Values) (seg : String) (v : Value) (n : Nat)
    (hdash : ¬ seg = "-") (hparse : jsParseInt seg = some (n : Int)) :
    setLeaf (.arr xs) seg v = .ok (.arr (xs.insertAt n v)) := by
  simp only [setLeaf, if_neg hdash, hparse, vai_allowEnd, jsbind_ok,
    Int.toNat_natCast]

/-- Leaf insertion on an object. -/
theorem setLeaf_obj_ok (fs : Fields) (seg : String) (v : Value) :
    setLeaf (.obj fs) seg v = .ok (.obj (fs.set seg v)) := rfl

/-- Array step of the removal walk through a canonical in-range index
whose child removal succeeds. -/
theorem removeWalk_arr_step (xs : Values) (seg : String) (rest : List String)
    (hrest : rest ≠ []) (hdash : ¬ seg = "-") (n : Nat)
    (hparse : jsParseInt seg = some (n : Int)) (hlt : n < xs.length)
    (r : Option Value) (c : Value)
    (hrec : removeWalk ((xs.get? n).getD .undef) rest = .ok (r, c)) :
    removeWalk (.arr xs) (seg :: rest) = .ok (r, .arr (xs.setAt n c)) := by
  have hguard : ¬ ((n : Int) < 0 ∨ (xs.length : Int) ≤ (n : Int)) := by omega
  simp only [removeWalk, if_neg hrest, if_neg hdash, hparse, if_neg hguard,
    Int.toNat_natCast, hrec, jsbind_ok]

/-- Object step of the removal walk through a present key whose child
removal succeeds. -/
theorem removeWalk_obj_step (fs : Fields) (seg : String) (rest : List String)
    (hrest : rest ≠ []) (child : Value) (hf : fs.get? seg = some child)
    (r : Option Value) (c : Value)
    (hrec : removeWalk child rest = .ok (r, c)) :
    removeWalk (.obj fs) (seg :: rest) = .ok (r, .obj (fs.set seg c)) := by
  simp only [removeWalk, if_neg hrest, hf, hrec, jsbind_ok]

/-- Array step of the write walk through a canonical index holding a
non-`undefined` element whose child write succeeds. -/
theorem setWalk_arr_step (fullSegs parentSegs : List String) (lastSeg : String)
    (v : Value) (xs : Values) (seg : String) (rest : List String)
    (hdash : ¬ seg = "-") (n : Nat) (hcan : canonicalIndex? seg = some n)
    (child : Value) (hchild : xs.get? n = some child) (hne : child ≠ .undef)
    (c' : Value) (hrec : setWalk fullSegs parentSegs lastSeg v child rest = .ok c') :
    setWalk fullSegs parentSegs lastSeg v (.arr xs) (seg :: rest)
      = .ok (.arr (xs.setAt n c')) := by
  have hparse := canonical_parseInt hcan
  have hhas := hasIdx_of_get? hchild hne
  simp only [setWalk, if_neg hdash, hparse, vai_allowEnd, jsbind_ok,
    Int.toNat_natCast, hhas, if_pos, Values.getStr, hcan, hchild, Option.getD,
    hrec, Values.setStr]

/-- Object step of the write walk through a present key whose child
write succeeds. -/
theorem setWalk_obj_step (fullSegs parentSegs : List String) (lastSeg : String)
    (v : Value) (fs : Fields) (seg : String) (rest : List String)
    (child : Value) (hf : fs.get? seg = some child)
    (c' : Value) (hrec : setWalk fullSegs parentSegs lastSeg v child rest = .ok c') :
    setWalk fullSegs parentSegs lastSeg v (.obj fs) (seg :: rest)
      = .ok (.obj (fs.set seg c')) := by
  have hhas : fs.hasKey seg = true := by
    unfold Fields.hasKey
    rw [hf]
    rfl
  simp only [setWalk, hhas, if_pos, hf, Option.getD, hrec, jsbind_ok]

/-- Core of the replace round trip: along a path that resolves, the
removal walk extracts exactly the resolved value, the write walk
re-inserts the new value at the same place, and the result reads back
as the new value.  The `fullSegs`/`parentSegs` closure arguments are
irrelevant because no intermediate container is ever created on a
resolving path. -/
theorem replaceCore (initSegs : List String) :
    ∀ (lastSeg : String) (doc w v : Value),
      v ≠ .undef →
      getWalk doc (initSegs ++ [lastSeg]) = some w →
      ∀ (fullSegs parentSegs : List String),
      ∃ d1 d2,
        removeWalk doc (initSegs ++ [lastSeg]) = .ok (some w, d1) ∧
        ((∃ as, d1 = Value.arr as) ∨ (∃ gs, d1 = Value.obj gs)) ∧
        setWalk fullSegs parentSegs lastSeg v d1 initSegs = .ok d2 ∧
        getWalk d2 (initSegs ++ [lastSeg]) = some v := by
  induction initSegs with
  | nil =>
    intro lastSeg doc w v hv hget fullSegs parentSegs
    simp only [List.nil_append] at hget ⊢
    cases doc with
    | null => exact Option.noConfusion hget
    | undef => exact Option.noConfusion hget
    | bool b => exact Option.noConfusion hget
    | num k => exact Option.noConfusion hget
    | str s => exact Option.noConfusion hget
    | arr xs =>
      by_cases hdash : lastSeg = "-"
      · simp only [getWalk, if_pos hdash] at hget
        exact Option.noConfusion hget
      · rw [getWalk_arr_cons xs lastSeg [] hdash] at hget
        cases hstr : xs.getStr lastSeg with
        | none =>
          rw [hstr] at hget
          exact Option.noConfusion hget
        | some child =>
          rw [hstr] at hget
          simp only [Option.getD] at hget
          have hchild_ne : child ≠ .undef := by
            intro hc
            rw [hc] at hget
            exact Option.noConfusion hget
          rw [getWalk_nil_ne_undef hchild_ne] at hget
          obtain rfl : child = w := Option.some.inj hget
          unfold Values.getStr at hstr
          cases hcan : canonicalIndex? lastSeg with
          | none =>
            rw [hcan] at hstr
            exact Option.noConfusion hstr
          | some n =>
            rw [hcan] at hstr
            dsimp only at hstr
            have hlt : n < xs.length := Values.get?_some_lt xs n _ hstr
            have hparse := canonical_parseInt hcan
            have hle : n ≤ (xs.removeAt n).length := by
              have := Values.removeAt_length xs n hlt
              omega
            refine ⟨.arr (xs.removeAt n), .arr ((xs.removeAt n).insertAt n v),
              ?_, Or.inl ⟨_, rfl⟩, ?_, ?_⟩
            · rw [removeWalk_single, removeLeaf_arr_ok xs lastSeg n hdash hparse hlt,
                hstr]
            · show setLeaf (Value.arr (xs.removeAt n)) lastSeg v = _
              rw [setLeaf_arr_ok _ lastSeg v n hdash hparse]
            · rw [getWalk_arr_cons _ lastSeg [] hdash]
              unfold Values.getStr
              rw [hcan]
              dsimp only
              rw [Values.insertAt_get?_self _ n v hle]
              simp only [Option.getD]
              exact getWalk_nil_ne_undef hv
    | obj fs =>
      rw [getWalk_obj_cons fs lastSeg []] at hget
      cases hf : fs.get? lastSeg with
      | none =>
        rw [hf] at hget
        exact Option.noConfusion hget
      | some child =>
        rw [hf] at hget
        simp only [Option.getD] at hget
        have hchild_ne : child ≠ .undef := by
          intro hc
          rw [hc] at hget
          exact Option.noConfusion hget
        rw [getWalk_nil_ne_undef hchild_ne] at hget
        obtain rfl : child = w := Option.some.inj hget
        refine ⟨.obj (fs.remove lastSeg), .obj ((fs.remove lastSeg).set lastSeg v),
          ?_, Or.inr ⟨_, rfl⟩, ?_, ?_⟩
        · rw [removeWalk_single, removeLeaf_obj_ok fs lastSeg _ hf]
        · show setLeaf (Value.obj (fs.remove lastSeg)) lastSeg v = _
          rw [setLeaf_obj_ok]
        · rw [getWalk_obj_cons _ lastSeg []]
          rw [Fields.set_get?_self]
          simp only [Option.getD]
          exact getWalk_nil_ne_undef hv
  | cons seg initRest ih =>
    intro lastSeg doc w v hv hget fullSegs parentSegs
    have hrest_ne : initRest ++ [lastSeg] ≠ [] := by
      cases initRest <;> simp
    obtain ⟨a, as, hcons⟩ : ∃ a as, initRest ++ [lastSeg] = a :: as := by
      cases initRest with
      | nil => exact ⟨lastSeg, [], rfl⟩
      | cons x xrest => exact ⟨x, xrest ++ [lastSeg], rfl⟩
    simp only [List.cons_append] at hget ⊢
    cases doc with
    | null => exact Option.noConfusion hget
    | undef => exact Option.noConfusion hget
    | bool b => exact Option.noConfusion hget
    | num k => exact Option.noConfusion hget
    | str s => exact Option.noConfusion hget
    | arr xs =>
      by_cases hdash : seg = "-"
      · simp only [getWalk, if_pos hdash] at hget
        exact Option.noConfusion hget
      · rw [getWalk_arr_cons xs seg _ hdash] at hget
        cases hstr : xs.getStr seg with
        | none =>
          rw [hstr, hcons] at hget
          exact Option.noConfusion hget
        | some child0 =>
          rw [hstr] at hget
          simp only [Option.getD] at hget
          unfold Values.getStr at hstr
          cases hcan : canonicalIndex? seg with
          | none =>
            rw [hcan] at hstr
            exact Option.noConfusion hstr
          | some n =>
            rw [hcan] at hstr
            dsimp only at hstr
            have hlt : n < xs.length := Values.get?_some_lt xs n _ hstr
            have hparse := canonical_parseInt hcan
            obtain ⟨d1c, d2c, hrem_c, hcont_c, hset_c, hget_c⟩ :=
              ih lastSeg child0 w v hv hget fullSegs parentSegs
            have hd1c_ne : d1c ≠ .undef := by
              rcases hcont_c with ⟨bs, rfl⟩ | ⟨gs, rfl⟩ <;>
                (intro hc; exact Value.noConfusion hc)
            have hlt' : n < (xs.setAt n d1c).length := by
              rw [Values.setAt_length]
              exact hlt
            refine ⟨.arr (xs.setAt n d1c), .arr ((xs.setAt n d1c).setAt n d2c),
              ?_, Or.inl ⟨_, rfl⟩, ?_, ?_⟩
            · exact removeWalk_arr_step xs seg _ hrest_ne hdash n hparse hlt
                (some w) d1c (by rw [hstr]; exact hrem_c)
            · exact setWalk_arr_step fullSegs parentSegs lastSeg v (xs.setAt n d1c)
                seg initRest hdash n hcan d1c (Values.setAt_get?_self xs n d1c hlt)
                hd1c_ne d2c hset_c
            · rw [getWalk_arr_cons _ seg _ hdash]
              unfold Values.getStr
              rw [hcan]
              dsimp only
              rw [Values.setAt_get?_self _ n d2c hlt']
              simp only [Option.getD]
              exact hget_c
    | obj fs =>
      rw [getWalk_obj_cons fs seg _] at hget
      cases hf : fs.get? seg with
      | none =>
        rw [hf, hcons] at hget
        exact Option.noConfusion hget
      | some child0 =>
        rw [hf] at hget
        simp only [Option.getD] at hget
        obtain ⟨d1c, d2c, hrem_c, hcont_c, hset_c, hget_c⟩ :=
          ih lastSeg child0 w v hv hget fullSegs parentSegs
        refine ⟨.obj (fs.set seg d1c), .obj ((fs.set seg d1c).set seg d2c),
          ?_, Or.inr ⟨_, rfl⟩, ?_, ?_⟩
        · exact removeWalk_obj_step fs seg _ hrest_ne child0 hf (some w) d1c hrem_c
        · exact setWalk_obj_step fullSegs parentSegs lastSeg v (fs.set seg d1c)
            seg initRest d1c (Fields.set_get?_self fs seg d1c) d2c hset_c
        · rw [getWalk_obj_cons _ seg _]
          rw [Fields.set_get?_self]
          simp only [Option.getD]
          exact hget_c

/-- A replace along a resolving pointer succeeds and overwrites: the
executor's removal probe finds the resolved value, the re-insertion
lands at the same place, and reading the path back yields the new
value. -/
theorem replaceResolves (doc : Value) (path : String) (v w : Value)
    (segs : List String) (hv : v ≠ .undef) (hne : path ≠ "")
    (hV : validateJsonPointerV path = .ok ())
    (hparse_eq : parsePointer path = .ok segs) (hsegs_ne : segs ≠ [])
    (hgw : getWalk doc segs = some w) :
    ∃ d2, applyOperation doc (opReplace path v) = .ok d2 ∧
      getValueByPointer d2 path = .ok (some v) := by
  have hw_ne := getWalk_some_ne_undef hgw
  have hdecomp : segs.dropLast ++ [segs.getLast hsegs_ne] = segs :=
    List.dropLast_append_getLast hsegs_ne
  obtain ⟨d1, d2, hrem, hcont, hset, hget2⟩ :=
    replaceCore segs.dropLast (segs.getLast hsegs_ne) doc w v hv
      (by rw [hdecomp]; exact hgw) segs segs.dropLast
  rw [hdecomp] at hrem hget2
  have hrvp : removeValueByPointer doc path = .ok (some w, d1) := by
    unfold removeValueByPointer
    rw [hparse_eq]
    simp only [jsbind_ok]
    obtain ⟨a, as, hcons⟩ : ∃ a as, segs = a :: as := by
      cases segs with
      | nil => exact absurd rfl hsegs_ne
      | cons a as => exact ⟨a, as, rfl⟩
    rw [hcons] at hrem ⊢
    exact hrem
  have hsvp : setValueByPointer d1 path v = .ok d2 := by
    unfold setValueByPointer
    rw [vOk_impl_uOk hV]
    simp only [jsbind_ok]
    rw [hparse_eq]
    simp only [jsbind_ok]
    rw [List.getLast?_eq_getLast segs hsegs_ne]
    exact hset
  refine ⟨d2, ?_, ?_⟩
  · unfold applyOperation
    dsimp only [opReplace]
    rw [hV]
    simp only [jsbind_ok]
    dsimp only [Option.getD]
    unfold handleReplaceOperation
    rw [hrvp]
    simp only [jsbind_ok]
    cases w with
    | undef => exact absurd rfl hw_ne
    | null => exact hsvp
    | bool b => exact hsvp
    | num k => exact hsvp
    | str s => exact hsvp
    | arr xs => exact hsvp
    | obj fs => exact hsvp
  · unfold getValueByPointer
    rw [if_neg hne, hparse_eq]
    simp only [jsbind_ok]
    rw [hget2]

/-- Claim C6 (corrected): when the patch executor processes a replace
operation whose (validator-accepted) path does not currently resolve —
the executor's removal probe finds nothing — it fails with the
`INVALID_POINTER` code, not a `PathNotFound` code, which the error enum
of `src/errors.ts` does not define; when the non-root path does resolve
to an existing value, the value at that path is overwritten with the
operation's value. -/
theorem claim_C6_amended :
    (∀ (doc : Value) (path : String) (v d' : Value),
      removeValueByPointer doc path = .ok (none, d') →
      validateJsonPointerV path = .ok () →
      applyOperation doc (opReplace path v)
        = .error (.patchError (PatchError.invalidPointer path))) ∧
    (∀ (doc : Value) (path : String) (v w : Value),
      validateJsonPointerV path = .ok () → path ≠ "" → v ≠ .undef →
      getValueByPointer doc path = .ok (some w) →
      ∃ d2, applyOperation doc (opReplace path v) = .ok d2 ∧
        getValueByPointer d2 path = .ok (some v)) := by
  constructor
  · intro doc path v d' hrem hV
    unfold applyOperation
    dsimp only [opReplace]
    rw [hV]
    simp only [jsbind_ok]
    dsimp only [Option.getD]
    unfold handleReplaceOperation
    rw [hrem]
    simp only [jsbind_ok]
    rfl
  · intro doc path v w hV hne hv hget
    have hsw := vOk_startsWith hne hV
    obtain ⟨hparse_eq, hsegs_ne⟩ := parsePointer_slash path hne hsw
    have hgw : getWalk doc (((splitSlash path.toList).tailD []).map
        (fun cs => unescapePointerSegment (String.mk cs))) = some w := by
      unfold getValueByPointer at hget
      rw [if_neg hne, hparse_eq] at hget
      simp only [jsbind_ok] at hget
      exact Except.ok.inj hget
    exact replaceResolves doc path v w _ hv hne hV hparse_eq hsegs_ne hgw

/-- Witness for claim C6: replacing at `/x` in `{}` (where the removal
probe finds nothing) raises the `INVALID_POINTER` error, and replacing
`/a` in `{"a": 1}` with `2` succeeds and reads back `2`. -/
theorem claim_C6_witness :
    applyOperation (vObj []) (opReplace "/x" (.num 5))
      = .error (.patchError (PatchError.invalidPointer "/x")) ∧
    ∃ d2, applyOperation (vObj [("a", .num 1)]) (opReplace "/a" (.num 2))
        = .ok d2 ∧
      getValueByPointer d2 "/a" = .ok (some (.num 2)) :=
  ⟨claim_C6_amended.1 (vObj []) "/x" (.num 5) (vObj []) (by rfl) (by rfl),
   claim_C6_amended.2 (vObj [("a", .num 1)]) "/a" (.num 2) (.num 1) (by rfl)
     (by decide) (fun hc => Value.noConfusion hc) (by rfl)⟩
end DS
